import Mathlib

/-!
Verification of the `tlru` crate: an intrusive doubly-linked queue
(`src/queue.rs`), a time-aware LRU cache built on it (`src/tlru.rs`), and a
uniqueness layer (`src/unique_tlru.rs`).

The embedding models raw pointers by natural-number addresses into an explicit
heap (an association list from addresses to nodes); allocation uses a
monotonically increasing counter, so addresses are never reused.  Writing
through a pointer whose address is not in the heap (a dangling pointer, which
in the Rust source is undefined behaviour) is a no-op on the heap.
`Instant` and `Duration` are modelled by `Nat`; `Instant::elapsed` at time
`now` is truncated subtraction `now - access`.
-/

/-- Association-list lookup, first match wins (models `HashMap::get` and raw
pointer dereference). -/
def sfind {K A : Type} [DecidableEq K] : List (K × A) → K → Option A
  | [], _ => none
  | (k', a) :: t, k => if k = k' then some a else sfind t k

/-- Association-list deletion of the first entry with the given key
(models `HashMap::remove` and `Box::from_raw` deallocation). -/
def sdel {K A : Type} [DecidableEq K] : List (K × A) → K → List (K × A)
  | [], _ => []
  | (k', a) :: t, k => if k = k' then t else (k', a) :: sdel t k

/-- Association-list insert-or-replace (models `HashMap::insert`). -/
def sinsert {K A : Type} [DecidableEq K] (m : List (K × A)) (k : K) (a : A) :
    List (K × A) :=
  (k, a) :: sdel m k

/-- The keys of an association list. -/
def keys {K A : Type} (m : List (K × A)) : List K := m.map Prod.fst

namespace Queue

/-- `Node<T>` from `queue.rs`: a payload with raw `prev`/`next` pointers
(null pointers are `none`). -/
structure Node (T : Type) where
  value : T
  prev : Option Nat
  next : Option Nat
deriving DecidableEq, Repr

/-- The heap holding the queue's nodes, addressed by `Nat`. -/
abbrev Heap (T : Type) := List (Nat × Node T)

/-- In-place update of the node at one address; a no-op if the address is not
live (a write through a dangling pointer). -/
def hmod {T : Type} : Heap T → Nat → (Node T → Node T) → Heap T
  | [], _, _ => []
  | (b, nd) :: t, a, f => if a = b then (b, f nd) :: t else (b, nd) :: hmod t a f

end Queue

/-- `Queue<T>` from `queue.rs`, together with the heap that owns its nodes and
the allocation counter (`Box::into_raw` yields address `fresh`; addresses are
never reused). -/
structure Queue (T : Type) where
  heap : Queue.Heap T
  head : Option Nat
  tail : Option Nat
  fresh : Nat
deriving Repr

namespace Queue

/-- `Queue::new`. -/
def new (T : Type) : Queue T := ⟨[], none, none, 0⟩

/-- `Queue::push_node`: link an (unlinked) node at address `new_tail` after the
current tail, exactly as the unsafe block does. -/
def push_node {T : Type} (q : Queue T) (new_tail : Nat) : Queue T :=
  match q.tail with
  | some t =>
      { q with
        heap := hmod (hmod q.heap t (fun nd => { nd with next := some new_tail }))
                  new_tail (fun nd => { nd with prev := some t })
        tail := some new_tail }
  | none => { q with head := some new_tail, tail := some new_tail }

/-- `Queue::push`: allocate a fresh node holding `value` with null links, then
`push_node` it; returns the new queue and the node's address. -/
def push {T : Type} (q : Queue T) (value : T) : Queue T × Nat :=
  let a := q.fresh
  let q1 : Queue T := { q with heap := (a, ⟨value, none, none⟩) :: q.heap, fresh := a + 1 }
  (push_node q1 a, a)

/-- `Queue::peek`: the value at the head, if any. -/
def peek {T : Type} (q : Queue T) : Option T :=
  match q.head with
  | none => none
  | some a => (sfind q.heap a).map (fun nd => nd.value)

/-- `Queue::pop_node`: unlink and deallocate the head node, returning it.
Note the source does NOT clear the new head's `prev` pointer. -/
def pop_node {T : Type} (q : Queue T) : Option (Node T × Queue T) :=
  match q.head with
  | none => none
  | some a =>
    (sfind q.heap a).map (fun nd =>
      (nd, { q with
              heap := sdel q.heap a
              head := nd.next
              tail := if nd.next = none then none else q.tail }))

/-- `Queue::remove`: unlink the element at address `elem` by relinking its
neighbours, updating `head`/`tail` if it was an endpoint, and clearing its own
links.  Mirrors the order of the raw-pointer writes in the source. -/
def remove {T : Type} (q : Queue T) (elem : Nat) : Queue T :=
  match sfind q.heap elem with
  | none => q
  | some nd =>
    let h1 := match nd.prev with
      | some p => hmod q.heap p (fun x => { x with next := nd.next })
      | none => q.heap
    let h2 := match nd.next with
      | some n => hmod h1 n (fun x => { x with prev := nd.prev })
      | none => h1
    let t' := if q.tail = some elem then nd.prev else q.tail
    let hd' := if q.head = some elem then nd.next else q.head
    { heap := hmod h2 elem (fun x => { x with prev := none, next := none })
      head := hd', tail := t', fresh := q.fresh }

/-- Front-to-back walk of the links, bounded by fuel. -/
def walk {T : Type} (heap : Heap T) : Nat → Option Nat → List T
  | 0, _ => []
  | _ + 1, none => []
  | fuel + 1, some a =>
    match sfind heap a with
    | none => []
    | some nd => nd.value :: walk heap fuel nd.next

/-- `Queue::iter` collected into a list: the front-to-back sequence of values
reachable from `head`. -/
def toList {T : Type} (q : Queue T) : List T :=
  walk q.heap q.heap.length q.head

end Queue

/-- `Record<K, V>` from `tlru.rs`. -/
structure Record (K V : Type) where
  key : K
  value : V
  access : Nat
deriving DecidableEq, Repr

/-- `TLRUCache<K, V>` from `tlru.rs`. -/
structure TLRUCache (K V : Type) where
  expiry : Nat
  store : List (K × Nat)
  order : Queue (Record K V)
deriving Repr

namespace TLRUCache

variable {K V : Type} [DecidableEq K]

/-- `TLRUCache::new`. -/
def new (K V : Type) (expiry : Nat) : TLRUCache K V :=
  ⟨expiry, [], Queue.new (Record K V)⟩

/-- `TLRUCache::insert` at time `now`.  On a hit the source stamps
`(*old).value.access = Instant::now()` and moves the node to the tail; it
never writes the `value` argument. -/
def insert (c : TLRUCache K V) (now : Nat) (key : K) (value : V) : TLRUCache K V :=
  match sfind c.store key with
  | none =>
    let r := Queue.push c.order ⟨key, value, now⟩
    { c with order := r.1, store := sinsert c.store key r.2 }
  | some old =>
    let q1 : Queue (Record K V) :=
      { c.order with
        heap := Queue.hmod c.order.heap old
          (fun nd => { nd with value := { nd.value with access := now } }) }
    { c with order := Queue.push_node (Queue.remove q1 old) old }

/-- The retry loop of `insert_new`: the `i`-th call of the key generator is
`gen i`; return the index of the first generated key absent from the store,
trying at most `fuel` keys. -/
def tryKeys (store : List (K × Nat)) (gen : Nat → K) : Nat → Nat → Option Nat
  | _, 0 => none
  | i, fuel + 1 =>
    if (sfind store (gen i)).isSome then tryKeys store gen (i + 1) fuel
    else some i

/-- `TLRUCache::insert_new` at time `now`: retry the generator until it yields
an absent key, push a fresh record, register it, return the key.  `none` when
`fuel` retries did not find a free key (the source would loop on). -/
def insert_new (c : TLRUCache K V) (now : Nat) (gen : Nat → K) (fuel : Nat)
    (value : V) : Option (K × TLRUCache K V) :=
  match tryKeys c.store gen 0 fuel with
  | none => none
  | some n =>
    let key := gen n
    let r := Queue.push c.order ⟨key, value, now⟩
    some (key, { c with order := r.1, store := sinsert c.store key r.2 })

/-- `TLRUCache::fetch` at time `now`: on a hit, stamp `access = now`, move the
node to the tail, and return a copy of the stored value. -/
def fetch (c : TLRUCache K V) (now : Nat) (key : K) : Option V × TLRUCache K V :=
  match sfind c.store key with
  | none => (none, c)
  | some old =>
    match sfind c.order.heap old with
    | none => (none, c)
    | some nd =>
      let q1 : Queue (Record K V) :=
        { c.order with
          heap := Queue.hmod c.order.heap old
            (fun x => { x with value := { x.value with access := now } }) }
      (some nd.value.value, { c with order := Queue.push_node (Queue.remove q1 old) old })

/-- `TLRUCache::remove`: drop the index entry, unlink the node, deallocate it,
and return its value. -/
def remove (c : TLRUCache K V) (key : K) : Option V × TLRUCache K V :=
  match sfind c.store key with
  | none => (none, c)
  | some old =>
    let c1 : TLRUCache K V := { c with store := sdel c.store key }
    let q1 := Queue.remove c1.order old
    match sfind q1.heap old with
    | none => (none, { c1 with order := q1 })
    | some nd =>
      (some nd.value.value, { c1 with order := { q1 with heap := sdel q1.heap old } })

/-- The `vacuum` scan loop, bounded by fuel: while the front record is expired
(`now - access >= expiry`, inclusive), pop it and drop its index entry. -/
def vacuumFuel (now : Nat) : TLRUCache K V → Nat → TLRUCache K V
  | c, 0 => c
  | c, fuel + 1 =>
    match Queue.peek c.order with
    | none => c
    | some r =>
      if now - r.access < c.expiry then c
      else
        match Queue.pop_node c.order with
        | none => c
        | some (nd, q') =>
          vacuumFuel now { c with order := q', store := sdel c.store nd.value.key } fuel

/-- `TLRUCache::vacuum` at time `now`.  The heap size bounds the number of
pops, so this fuel is always sufficient. -/
def vacuum (c : TLRUCache K V) (now : Nat) : TLRUCache K V :=
  vacuumFuel now c c.order.heap.length

/-- Modelled from the spec: the callback-taking vacuum loop.  `unique_tlru.rs`
calls `TLRUCache::vacuum_callback`, whose definition is not among the provided
source files; per the spec (§4.2, `vacuum(on_evict?)`) it scans from the front
while the front record is expired, pops it, removes its key from the index,
and invokes the per-eviction callback with the evicted record before
discarding it.  The callback threads a state `S` (the caller's captured
environment). -/
def vacuumCbFuel {S : Type} (now : Nat) (cb : S → Record K V → S) :
    TLRUCache K V → S → Nat → TLRUCache K V × S
  | c, s, 0 => (c, s)
  | c, s, fuel + 1 =>
    match Queue.peek c.order with
    | none => (c, s)
    | some r =>
      if now - r.access < c.expiry then (c, s)
      else
        match Queue.pop_node c.order with
        | none => (c, s)
        | some (nd, q') =>
          vacuumCbFuel now cb
            { c with order := q', store := sdel c.store nd.value.key }
            (cb s nd.value) fuel

/-- Modelled from the spec: `TLRUCache::vacuum_callback` (see `vacuumCbFuel`). -/
def vacuum_callback {S : Type} (c : TLRUCache K V) (now : Nat)
    (cb : S → Record K V → S) (s : S) : TLRUCache K V × S :=
  vacuumCbFuel now cb c s c.order.heap.length

/-- `TLRUCache::iter` collected into a list. -/
def iterList (c : TLRUCache K V) : List (Record K V) := Queue.toList c.order

end TLRUCache

/-- `UniqueTLRUCache<K, V>` from `unique_tlru.rs`.  The `Key` trait's
`id : V -> Id` projection is passed explicitly to each operation. -/
structure UniqueTLRUCache (K V Id : Type) where
  value_ids : List (Id × K)
  cache : TLRUCache K V
deriving Repr

namespace UniqueTLRUCache

variable {K V Id : Type} [DecidableEq K] [DecidableEq Id]

/-- `UniqueTLRUCache::new`. -/
def new (K V Id : Type) (expiry : Nat) : UniqueTLRUCache K V Id :=
  ⟨[], TLRUCache.new K V expiry⟩

/-- `UniqueTLRUCache::insert_new`: deduplicate by `vid value`; on a live hit
return the recorded key (refreshing it via `fetch`); otherwise drop any stale
secondary entry and insert fresh. -/
def insert_new (vid : V → Id) (u : UniqueTLRUCache K V Id) (now : Nat)
    (gen : Nat → K) (fuel : Nat) (value : V) :
    Option (K × UniqueTLRUCache K V Id) :=
  match sfind u.value_ids (vid value) with
  | some existing =>
    match TLRUCache.fetch u.cache now existing with
    | (some _, c') => some (existing, { u with cache := c' })
    | (none, _) =>
      let ids1 := sdel u.value_ids (vid value)
      (TLRUCache.insert_new u.cache now gen fuel value).map
        (fun r => (r.1, ⟨sinsert ids1 (vid value) r.1, r.2⟩))
  | none =>
    (TLRUCache.insert_new u.cache now gen fuel value).map
      (fun r => (r.1, ⟨sinsert u.value_ids (vid value) r.1, r.2⟩))

/-- `UniqueTLRUCache::fetch`: direct delegation. -/
def fetch (u : UniqueTLRUCache K V Id) (now : Nat) (key : K) :
    Option V × UniqueTLRUCache K V Id :=
  let r := TLRUCache.fetch u.cache now key
  (r.1, { u with cache := r.2 })

/-- `UniqueTLRUCache::remove`: delegate, then drop the secondary-index entry
keyed by the removed value's identity. -/
def remove (vid : V → Id) (u : UniqueTLRUCache K V Id) (key : K) :
    Option V × UniqueTLRUCache K V Id :=
  match TLRUCache.remove u.cache key with
  | (none, c') => (none, { u with cache := c' })
  | (some val, c') => (some val, ⟨sdel u.value_ids (vid val), c'⟩)

/-- `UniqueTLRUCache::remove_value`. -/
def remove_value (vid : V → Id) (u : UniqueTLRUCache K V Id) (value : V) :
    Option V × UniqueTLRUCache K V Id :=
  match sfind u.value_ids (vid value) with
  | none => (none, u)
  | some key =>
    let u1 : UniqueTLRUCache K V Id := { u with value_ids := sdel u.value_ids (vid value) }
    match TLRUCache.remove u1.cache key with
    | (none, c') => (none, { u1 with cache := c' })
    | (some val, c') => (some val, { u1 with cache := c' })

/-- `UniqueTLRUCache::vacuum`: delegate to the cache's callback vacuum with a
callback deleting `value_ids[evicted.value.id()]`. -/
def vacuum (vid : V → Id) (u : UniqueTLRUCache K V Id) (now : Nat) :
    UniqueTLRUCache K V Id :=
  let r := TLRUCache.vacuum_callback u.cache now
    (fun ids rec => sdel ids (vid rec.value)) u.value_ids
  ⟨r.2, r.1⟩

end UniqueTLRUCache

/-! ### Association-list lemmas -/

section AssocLemmas

variable {K A : Type} [DecidableEq K]

theorem sfind_eq_none_iff {m : List (K × A)} {k : K} :
    sfind m k = none ↔ k ∉ keys m := by
  induction m with
  | nil => simp [sfind, keys]
  | cons p t ih =>
    obtain ⟨k', a⟩ := p
    by_cases h : k = k' <;> simp [sfind, keys, h, ih]

theorem isSome_sfind_iff {m : List (K × A)} {k : K} :
    (sfind m k).isSome ↔ k ∈ keys m := by
  rw [Option.isSome_iff_ne_none]
  exact not_iff_comm.mp (by rw [← sfind_eq_none_iff])

theorem sfind_sdel_ne {m : List (K × A)} {k k' : K} (h : k' ≠ k) :
    sfind (sdel m k) k' = sfind m k' := by
  induction m with
  | nil => rfl
  | cons p t ih =>
    obtain ⟨b, a⟩ := p
    by_cases hb : k = b
    · subst hb
      simp only [sdel, if_pos trivial, eq_self_iff_true, if_true, sfind, if_neg h]
    · by_cases hb' : k' = b <;> simp [sdel, sfind, hb, hb', ih]

theorem sdel_subset {m : List (K × A)} {k : K} : ∀ p ∈ sdel m k, p ∈ m := by
  induction m with
  | nil => simp [sdel]
  | cons q t ih =>
    obtain ⟨b, a⟩ := q
    by_cases hb : k = b <;> intro p hp <;> simp [sdel, hb] at hp
    · simp [hp]
    · rcases hp with hp | hp
      · simp [hp]
      · exact List.mem_cons_of_mem _ (ih p hp)

theorem keys_sdel_sublist (m : List (K × A)) (k : K) :
    (keys (sdel m k)).Sublist (keys m) := by
  induction m with
  | nil => simp [sdel]
  | cons q t ih =>
    obtain ⟨b, a⟩ := q
    by_cases hb : k = b
    · simp only [sdel, if_pos hb, keys, List.map_cons]
      exact List.sublist_cons_self _ _
    · simp only [sdel, if_neg hb, keys, List.map_cons]
      exact List.Sublist.cons₂ _ ih

theorem keys_sdel_nodup {m : List (K × A)} (h : (keys m).Nodup) (k : K) :
    (keys (sdel m k)).Nodup :=
  (keys_sdel_sublist m k).nodup h

theorem sfind_sdel_self {m : List (K × A)} (h : (keys m).Nodup) (k : K) :
    sfind (sdel m k) k = none := by
  induction m with
  | nil => rfl
  | cons p t ih =>
    obtain ⟨b, a⟩ := p
    simp only [keys, List.map_cons, List.nodup_cons] at h
    by_cases hb : k = b
    · subst hb
      simp only [sdel, if_pos rfl]
      rw [sfind_eq_none_iff]
      exact h.1
    · simp [sdel, sfind, hb, ih h.2]

theorem sfind_of_mem {m : List (K × A)} (h : (keys m).Nodup) {p : K × A}
    (hp : p ∈ m) : sfind m p.1 = some p.2 := by
  induction m with
  | nil => cases hp
  | cons q t ih =>
    obtain ⟨b, a⟩ := q
    simp only [keys, List.map_cons, List.nodup_cons] at h
    rcases List.mem_cons.mp hp with hp | hp
    · subst hp
      simp [sfind]
    · have hne : p.1 ≠ b := by
        intro he
        exact h.1 (he ▸ List.mem_map_of_mem Prod.fst hp)
      simp [sfind, hne, ih h.2 hp]

theorem sfind_mem {m : List (K × A)} {k : K} {a : A} (h : sfind m k = some a) :
    (k, a) ∈ m := by
  induction m with
  | nil => cases h
  | cons p t ih =>
    obtain ⟨b, v⟩ := p
    by_cases hb : k = b <;> simp [sfind, hb] at h
    · simp [hb, h]
    · exact List.mem_cons_of_mem _ (ih h)

theorem length_sdel {m : List (K × A)} {k : K} (h : (sfind m k).isSome) :
    (sdel m k).length + 1 = m.length := by
  induction m with
  | nil => simp [sfind] at h
  | cons p t ih =>
    obtain ⟨b, a⟩ := p
    by_cases hb : k = b <;> simp [sfind, sdel, hb] at h ⊢
    · exact ih h

end AssocLemmas

namespace Queue

variable {T : Type}

theorem sfind_hmod (m : Heap T) (a : Nat) (f : Node T → Node T) (b : Nat) :
    sfind (hmod m a f) b = if b = a then (sfind m a).map f else sfind m b := by
  induction m with
  | nil => by_cases hba : b = a <;> simp [hmod, sfind, hba]
  | cons p t ih =>
    obtain ⟨c, nd⟩ := p
    by_cases hac : a = c
    · subst hac
      by_cases hba : b = a <;> simp [hmod, sfind, hba]
    · have hca : ¬c = a := fun h => hac h.symm
      by_cases hba : b = a
      · subst hba
        simp [hmod, sfind, hac, hca, ih]
      · by_cases hbc : b = c <;> simp [hmod, sfind, hac, hca, hba, hbc, ih]

theorem keys_hmod (m : Heap T) (a : Nat) (f : Node T → Node T) :
    keys (hmod m a f) = keys m := by
  induction m with
  | nil => rfl
  | cons p t ih =>
    obtain ⟨c, nd⟩ := p
    by_cases hac : a = c <;> simp [hmod, keys, hac] at ih ⊢
    exact ih

theorem hmod_mem_keys {m : Heap T} {a : Nat} {f : Node T → Node T} {p : Nat × Node T}
    (hp : p ∈ hmod m a f) : p.1 ∈ keys m := by
  have : p.1 ∈ keys (hmod m a f) := List.mem_map_of_mem Prod.fst hp
  rwa [keys_hmod] at this

theorem isSome_sfind_hmod (m : Heap T) (a : Nat) (f : Node T → Node T) (b : Nat) :
    (sfind (hmod m a f) b).isSome = (sfind m b).isSome := by
  rw [sfind_hmod]
  by_cases hba : b = a <;> simp [hba]

end Queue

/-! ### Doubly-linked chain segments -/

namespace Queue

variable {T : Type}

/-- The entry address of a segment followed by a continuation pointer. -/
def seghd : List Nat → Option Nat → Option Nat
  | [], nx => nx
  | a :: _, _ => some a

/-- The back-pointer leaving a segment: its last element, or the incoming
back-pointer when the segment is empty. -/
def lastJoin (pr : Option Nat) : List Nat → Option Nat
  | [] => pr
  | a :: xs => lastJoin (some a) xs

/-- `chainSeg heap pr xs nx`: the addresses `xs` form a doubly-linked segment
in `heap`: the first node's `prev` is `pr`, consecutive nodes point at each
other, and the last node's `next` is `nx`. -/
def chainSeg (heap : Heap T) : Option Nat → List Nat → Option Nat → Prop
  | _, [], _ => True
  | pr, a :: rest, nx =>
    ∃ nd, sfind heap a = some nd ∧ nd.prev = pr ∧ nd.next = seghd rest nx ∧
      chainSeg heap (some a) rest nx

theorem seghd_append (xs ys : List Nat) (nx : Option Nat) :
    seghd (xs ++ ys) nx = seghd xs (seghd ys nx) := by
  cases xs <;> rfl

theorem seghd_none_eq_head (xs : List Nat) : seghd xs none = xs.head? := by
  cases xs <;> rfl

theorem lastJoin_append (pr : Option Nat) (xs ys : List Nat) :
    lastJoin pr (xs ++ ys) = lastJoin (lastJoin pr xs) ys := by
  induction xs generalizing pr with
  | nil => rfl
  | cons a xs ih => simp [lastJoin, ih]

theorem lastJoin_ne_nil (pr : Option Nat) {xs : List Nat} (h : xs ≠ []) :
    lastJoin pr xs = xs.getLast? := by
  induction xs generalizing pr with
  | nil => cases h rfl
  | cons a xs ih =>
    cases xs with
    | nil => rfl
    | cons b ys => simpa [lastJoin] using ih (some a) (by simp)

theorem chainSeg_append (heap : Heap T) (pr : Option Nat) (xs ys : List Nat)
    (nx : Option Nat) :
    chainSeg heap pr (xs ++ ys) nx ↔
      chainSeg heap pr xs (seghd ys nx) ∧ chainSeg heap (lastJoin pr xs) ys nx := by
  induction xs generalizing pr with
  | nil => simp [chainSeg, lastJoin]
  | cons a xs ih =>
    simp only [List.cons_append, chainSeg, seghd_append, List.append_eq, ih, lastJoin]
    constructor
    · rintro ⟨nd, h1, h2, h3, h4, h5⟩
      exact ⟨⟨nd, h1, h2, h3, h4⟩, h5⟩
    · rintro ⟨⟨nd, h1, h2, h3, h4⟩, h5⟩
      exact ⟨nd, h1, h2, h3, h4, h5⟩

theorem chainSeg_snoc (heap : Heap T) (pr : Option Nat) (xs : List Nat)
    (y : Nat) (nx : Option Nat) :
    chainSeg heap pr (xs ++ [y]) nx ↔
      chainSeg heap pr xs (some y) ∧
        ∃ nd, sfind heap y = some nd ∧ nd.prev = lastJoin pr xs ∧ nd.next = nx := by
  rw [chainSeg_append]
  simp only [chainSeg, seghd]
  constructor
  · rintro ⟨h1, nd, h2, h3, h4, -⟩
    exact ⟨h1, nd, h2, h3, h4⟩
  · rintro ⟨h1, nd, h2, h3, h4⟩
    exact ⟨h1, nd, h2, h3, h4, trivial⟩

theorem chainSeg_congr {h1 h2 : Heap T} {xs : List Nat}
    (he : ∀ b ∈ xs, sfind h2 b = sfind h1 b) {pr nx : Option Nat}
    (hc : chainSeg h1 pr xs nx) : chainSeg h2 pr xs nx := by
  induction xs generalizing pr with
  | nil => trivial
  | cons a xs ih =>
    obtain ⟨nd, hf, hp, hn, hrest⟩ := hc
    exact ⟨nd, (he a (by simp)) ▸ hf, hp, hn,
      ih (fun b hb => he b (List.mem_cons_of_mem _ hb)) hrest⟩

theorem chainSeg_isSome {heap : Heap T} {pr : Option Nat} {xs : List Nat}
    {nx : Option Nat} (hc : chainSeg heap pr xs nx) :
    ∀ a ∈ xs, (sfind heap a).isSome := by
  induction xs generalizing pr with
  | nil => simp
  | cons b xs ih =>
    obtain ⟨nd, hf, -, -, hrest⟩ := hc
    intro a ha
    rcases List.mem_cons.mp ha with h | h
    · subst h; simp [hf]
    · exact ih hrest a h

/-- A heap update that does not change links preserves chain segments. -/
theorem chainSeg_hmod_value {heap : Heap T} {a : Nat} {f : Node T → Node T}
    (hf : ∀ nd, (f nd).prev = nd.prev ∧ (f nd).next = nd.next)
    {pr nx : Option Nat} {xs : List Nat} (hc : chainSeg heap pr xs nx) :
    chainSeg (hmod heap a f) pr xs nx := by
  induction xs generalizing pr with
  | nil => trivial
  | cons b xs ih =>
    obtain ⟨nd, hfind, hp, hn, hrest⟩ := hc
    by_cases hba : b = a
    · subst hba
      exact ⟨f nd, by rw [sfind_hmod]; simp [hfind], (hf nd).1.trans hp,
        (hf nd).2.trans hn, ih hrest⟩
    · exact ⟨nd, by rw [sfind_hmod]; simp [hba, hfind], hp, hn, ih hrest⟩

end Queue

/-! ### Pointwise characterization of `Queue.remove` and `Queue.push_node` -/

namespace Queue

variable {T : Type}

theorem remove_absent {q : Queue T} {a : Nat} (h : sfind q.heap a = none) :
    q.remove a = q := by
  simp [remove, h]

/-- Update the heap through an optional pointer: a no-op for a null pointer. -/
def hmodOpt (h : Heap T) (o : Option Nat) (f : Node T → Node T) : Heap T :=
  match o with
  | none => h
  | some x => hmod h x f

theorem sfind_hmodOpt (h : Heap T) (o : Option Nat) (f : Node T → Node T) (b : Nat) :
    sfind (hmodOpt h o f) b =
      if o = some b then (sfind h b).map f else sfind h b := by
  cases o with
  | none => simp [hmodOpt]
  | some x =>
    simp only [hmodOpt, sfind_hmod, Option.some.injEq]
    by_cases hbx : b = x
    · subst hbx
      simp
    · have hxb : ¬x = b := fun he => hbx he.symm
      simp [hbx, hxb]

theorem remove_eq {q : Queue T} {a : Nat} {nd : Node T}
    (hnd : sfind q.heap a = some nd) :
    q.remove a =
      ⟨hmod (hmodOpt (hmodOpt q.heap nd.prev (fun x => { x with next := nd.next }))
          nd.next (fun x => { x with prev := nd.prev }))
          a (fun x => { x with prev := none, next := none }),
        if q.head = some a then nd.next else q.head,
        if q.tail = some a then nd.prev else q.tail,
        q.fresh⟩ := by
  simp only [remove, hnd]
  rcases nd.prev with _ | p <;> rcases nd.next with _ | n <;> rfl

theorem remove_heap_sfind {q : Queue T} {a : Nat} {nd : Node T}
    (hnd : sfind q.heap a = some nd) (b : Nat) :
    sfind (q.remove a).heap b =
      if b = a then some (⟨nd.value, none, none⟩ : Node T)
      else (sfind q.heap b).map (fun x =>
        let x1 := if nd.prev = some b then { x with next := nd.next } else x
        if nd.next = some b then { x1 with prev := nd.prev } else x1) := by
  rw [remove_eq hnd]
  show sfind (hmod _ _ _) _ = _
  rw [sfind_hmod]
  by_cases hba : b = a
  · subst hba
    rw [if_pos rfl, sfind_hmodOpt, sfind_hmodOpt]
    by_cases hN : nd.next = some b <;> by_cases hP : nd.prev = some b <;>
      simp only [hN, hP, if_true, if_false, eq_self_iff_true, hnd] <;> simp [hnd]
  · rw [if_neg hba, if_neg hba, sfind_hmodOpt, sfind_hmodOpt]
    cases hsb : sfind q.heap b with
    | none => split_ifs <;> simp
    | some x =>
      by_cases hP : nd.prev = some b <;> by_cases hN : nd.next = some b <;>
        simp [hP, hN]

theorem remove_head {q : Queue T} {a : Nat} {nd : Node T}
    (hnd : sfind q.heap a = some nd) :
    (q.remove a).head = if q.head = some a then nd.next else q.head := by
  simp only [remove, hnd]

theorem remove_tail {q : Queue T} {a : Nat} {nd : Node T}
    (hnd : sfind q.heap a = some nd) :
    (q.remove a).tail = if q.tail = some a then nd.prev else q.tail := by
  simp only [remove, hnd]

theorem remove_fresh {q : Queue T} {a : Nat} {nd : Node T}
    (hnd : sfind q.heap a = some nd) : (q.remove a).fresh = q.fresh := by
  simp only [remove, hnd]

theorem remove_keys {q : Queue T} {a : Nat} {nd : Node T}
    (hnd : sfind q.heap a = some nd) : keys (q.remove a).heap = keys q.heap := by
  simp only [remove, hnd]
  rcases nd.prev with _ | p <;> rcases nd.next with _ | n <;> simp [keys_hmod]

theorem remove_value_map {q : Queue T} {a : Nat} {nd : Node T}
    (hnd : sfind q.heap a = some nd) (b : Nat) :
    (sfind (q.remove a).heap b).map Node.value = (sfind q.heap b).map Node.value := by
  rw [remove_heap_sfind hnd b]
  by_cases hba : b = a
  · subst hba
    simp [hnd]
  · simp only [if_neg hba, Option.map_map]
    cases sfind q.heap b with
    | none => rfl
    | some x =>
      show some _ = some _
      congr 1
      show Node.value _ = _
      split <;> split <;> rfl

theorem push_node_heap_sfind {q : Queue T} {a t : Nat} (ht : q.tail = some t)
    (hta : t ≠ a) (b : Nat) :
    sfind (q.push_node a).heap b =
      if b = a then (sfind q.heap a).map (fun x => { x with prev := some t })
      else if b = t then (sfind q.heap t).map (fun x => { x with next := some a })
      else sfind q.heap b := by
  have hat : ¬a = t := fun he => hta he.symm
  simp only [push_node, ht, sfind_hmod]
  by_cases hba : b = a
  · subst hba
    simp [hat]
  · simp only [if_neg hba]

theorem push_node_none_tail {q : Queue T} {a : Nat} (ht : q.tail = none) :
    q.push_node a = { q with head := some a, tail := some a } := by
  simp [push_node, ht]

theorem push_node_some_head {q : Queue T} {a t : Nat} (ht : q.tail = some t) :
    (q.push_node a).head = q.head := by
  simp [push_node, ht]

theorem push_node_some_tail {q : Queue T} {a t : Nat} (ht : q.tail = some t) :
    (q.push_node a).tail = some a := by
  simp [push_node, ht]

theorem push_node_fresh {q : Queue T} {a : Nat} :
    (q.push_node a).fresh = q.fresh := by
  rcases ht : q.tail with _ | t <;> simp [push_node, ht]

theorem push_node_keys {q : Queue T} {a : Nat} :
    keys (q.push_node a).heap = keys q.heap := by
  rcases ht : q.tail with _ | t <;> simp [push_node, ht, keys_hmod]

theorem hmod_value_map (h : Heap T) (a : Nat) (f : Node T → Node T)
    (hf : ∀ nd, (f nd).value = nd.value) (b : Nat) :
    (sfind (hmod h a f) b).map Node.value = (sfind h b).map Node.value := by
  rw [sfind_hmod]
  by_cases hba : b = a
  · subst hba
    cases sfind h b <;> simp [hf]
  · simp [hba]

theorem push_node_value_map {q : Queue T} {a : Nat} (b : Nat) :
    (sfind (q.push_node a).heap b).map Node.value = (sfind q.heap b).map Node.value := by
  rcases ht : q.tail with _ | t
  · simp [push_node, ht]
  · simp only [push_node, ht]
    rw [hmod_value_map
        (hmod q.heap t (fun nd => { nd with next := some a })) a
        (fun nd => { nd with prev := some t }) (fun _ => rfl) b,
      hmod_value_map q.heap t (fun nd => { nd with next := some a }) (fun _ => rfl) b]

end Queue

/-! ### Queue well-formedness -/

theorem list_eq_nil_or_append_last {α : Type} (l : List α) :
    l = [] ∨ ∃ l' a, l = l' ++ [a] := by
  rcases List.eq_nil_or_concat l with h | ⟨L, b, h⟩
  · exact Or.inl h
  · exact Or.inr ⟨L, b, by simpa [List.concat_eq_append] using h⟩

namespace Queue

variable {T : Type}

/-- Well-formedness of a queue against the front-to-back address list `L`.
`pr` is the front node's `prev` pointer: `none` in a clean queue, or the
dangling address of a previously popped head (`pop_node` does not clear the
new head's `prev` pointer). -/
structure QInv (q : Queue T) (pr : Option Nat) (L : List Nat) : Prop where
  chain : chainSeg q.heap pr L none
  head_eq : q.head = L.head?
  tail_eq : q.tail = L.getLast?
  nodupL : L.Nodup
  hnodup : (keys q.heap).Nodup
  dom_sub : ∀ p ∈ q.heap, p.1 ∈ L
  bound : ∀ a ∈ L, a < q.fresh
  pr_ok : ∀ d, pr = some d → sfind q.heap d = none ∧ d < q.fresh
  nil_pr : L = [] → pr = none

theorem QInv.sfind_not_mem {q : Queue T} {pr : Option Nat} {L : List Nat}
    (hq : QInv q pr L) {b : Nat} (hb : b ∉ L) : sfind q.heap b = none := by
  rw [sfind_eq_none_iff]
  intro hmem
  obtain ⟨p, hp, hpb⟩ := List.mem_map.mp hmem
  exact hb (hpb ▸ hq.dom_sub p hp)

theorem QInv.pr_ne_live {q : Queue T} {pr : Option Nat} {L : List Nat}
    (hq : QInv q pr L) {b : Nat} {nd : Node T}
    (hb : sfind q.heap b = some nd) : pr ≠ some b := by
  intro he
  obtain ⟨h1, -⟩ := hq.pr_ok b he
  rw [hb] at h1
  cases h1

theorem remove_sfind_untouched {q : Queue T} {a : Nat} {nd : Node T}
    (hnd : sfind q.heap a = some nd) {b : Nat} (hba : b ≠ a)
    (hpb : nd.prev ≠ some b) (hnb : nd.next ≠ some b) :
    sfind (q.remove a).heap b = sfind q.heap b := by
  rw [remove_heap_sfind hnd b, if_neg hba]
  cases sfind q.heap b <;> simp [hpb, hnb]

theorem remove_sfind_prevNbr {q : Queue T} {a : Nat} {nd : Node T}
    (hnd : sfind q.heap a = some nd) {p : Nat} {pnd : Node T}
    (hpa : p ≠ a) (hprev : nd.prev = some p) (hnp : nd.next ≠ some p)
    (hpnd : sfind q.heap p = some pnd) :
    sfind (q.remove a).heap p = some { pnd with next := nd.next } := by
  rw [remove_heap_sfind hnd p, if_neg hpa, hpnd]
  simp [hprev, hnp]

theorem remove_sfind_nextNbr {q : Queue T} {a : Nat} {nd : Node T}
    (hnd : sfind q.heap a = some nd) {n : Nat} {nnd : Node T}
    (hna : n ≠ a) (hnext : nd.next = some n) (hpn : nd.prev ≠ some n)
    (hnnd : sfind q.heap n = some nnd) :
    sfind (q.remove a).heap n = some { nnd with prev := nd.prev } := by
  rw [remove_heap_sfind hnd n, if_neg hna, hnnd]
  simp [hnext, hpn]

/-- The central unlinking theorem: removing a linked element from a
well-formed queue yields the chain with that element deleted, with the
expected head and tail. -/
theorem remove_spec {q : Queue T} {pr : Option Nat} {L1 L2 : List Nat} {a : Nat}
    (hq : QInv q pr (L1 ++ a :: L2)) :
    ∃ nd, sfind q.heap a = some nd ∧
      chainSeg (q.remove a).heap pr (L1 ++ L2) none ∧
      (q.remove a).head = (L1 ++ L2).head? ∧
      (q.remove a).tail = lastJoin pr (L1 ++ L2) ∧
      sfind (q.remove a).heap a = some ⟨nd.value, none, none⟩ := by
  classical
  have hnodupL := hq.nodupL
  rw [List.nodup_append] at hnodupL
  obtain ⟨hndL1, hndaL2, hdisj⟩ := hnodupL
  have haL1 : a ∉ L1 := fun h => hdisj h (List.mem_cons_self a L2)
  have haL2 : a ∉ L2 := (List.nodup_cons.mp hndaL2).1
  have hndL2 : L2.Nodup := (List.nodup_cons.mp hndaL2).2
  have hch := hq.chain
  rw [chainSeg_append] at hch
  obtain ⟨hC1, hC2⟩ := hch
  have hC1 : chainSeg q.heap pr L1 (some a) := hC1
  obtain ⟨nd, hnd, hprev, hnext, hC3⟩ := hC2
  -- nd.prev never points into L2, nd.next never points into L1
  have hPL2 : ∀ b ∈ L2, nd.prev ≠ some b := by
    intro b hb heq
    rw [hprev] at heq
    rcases hL1e : L1 with _ | ⟨c, L1'⟩ <;> rw [hL1e] at heq
    · simp only [lastJoin] at heq
      have hlive := chainSeg_isSome hC3 b hb
      obtain ⟨nnd', hnnd'⟩ := Option.isSome_iff_exists.mp hlive
      exact hq.pr_ne_live hnnd' heq
    · rw [lastJoin_ne_nil pr (by simp),
        List.getLast?_eq_getLast _ (by simp)] at heq
      injection heq with heq
      refine hdisj ?_ (List.mem_cons_of_mem a hb)
      rw [hL1e]
      exact heq ▸ List.getLast_mem (by simp)
  have hNL1 : ∀ b ∈ L1, nd.next ≠ some b := by
    intro b hb heq
    rw [hnext] at heq
    rcases L2 with _ | ⟨n, L2'⟩
    · cases heq
    · simp only [seghd] at heq
      injection heq with heq
      exact hdisj hb (heq ▸ List.mem_cons_of_mem a (List.mem_cons_self n L2'))
  refine ⟨nd, hnd, ?_, ?_, ?_, ?_⟩
  · -- the chain over L1 ++ L2
    rw [chainSeg_append]
    constructor
    · -- left part: L1, with the last node re-pointed past a
      rcases list_eq_nil_or_append_last L1 with rfl | ⟨M, p, rfl⟩
      · trivial
      · have hpM : p ∉ M := by
          rw [List.nodup_append] at hndL1
          exact fun h => hndL1.2.2 h (List.mem_cons_self p [])
        have hpL1 : p ∈ M ++ [p] := by simp
        have hpa : p ≠ a := fun h => haL1 (h ▸ hpL1)
        have hprev' : nd.prev = some p := by
          rw [hprev, lastJoin_ne_nil pr (by simp), List.getLast?_concat]
        rw [chainSeg_snoc] at hC1
        obtain ⟨hCM, pnd, hpnd, hpprev, hpnext⟩ := hC1
        rw [chainSeg_snoc]
        constructor
        · refine chainSeg_congr (fun b hb => ?_) hCM
          have hba : b ≠ a := fun h => haL1 (h ▸ List.mem_append_left [p] hb)
          exact remove_sfind_untouched hnd hba
            (by rw [hprev']; intro h; injection h with h; exact hpM (h ▸ hb))
            (hNL1 b (List.mem_append_left [p] hb))
        · refine ⟨{ pnd with next := nd.next }, ?_, ?_, ?_⟩
          · exact remove_sfind_prevNbr hnd hpa hprev' (hNL1 p hpL1) hpnd
          · exact hpprev
          · exact hnext
    · -- right part: L2, with the first node's prev re-pointed past a
      rcases L2 with _ | ⟨n, L2'⟩
      · trivial
      · obtain ⟨nnd, hnnd, hnprev, hnnext, hC4⟩ := hC3
        have hna : n ≠ a := fun h => haL2 (h ▸ List.mem_cons_self n L2')
        have hnL2 : n ∈ n :: L2' := List.mem_cons_self n L2'
        have hnext' : nd.next = some n := hnext
        refine ⟨{ nnd with prev := nd.prev }, ?_, ?_, ?_, ?_⟩
        · exact remove_sfind_nextNbr hnd hna hnext' (hPL2 n hnL2) hnnd
        · rw [hprev]
        · exact hnnext
        · refine chainSeg_congr (fun b hb => ?_) hC4
          have hbL2 : b ∈ n :: L2' := List.mem_cons_of_mem n hb
          have hba : b ≠ a := fun h => haL2 (h ▸ hbL2)
          have hbn : nd.next ≠ some b := by
            rw [hnext']
            intro h
            injection h with h
            exact (List.nodup_cons.mp hndL2).1 (h ▸ hb)
          exact remove_sfind_untouched hnd hba (hPL2 b hbL2) hbn
  · -- head
    rw [remove_head hnd, hq.head_eq]
    rcases L1 with _ | ⟨c, L1'⟩
    · simp [hnext, seghd_none_eq_head]
    · have hca : c ≠ a := fun h => haL1 (h ▸ List.mem_cons_self c L1')
      simp [hca]
  · -- tail
    rw [remove_tail hnd, hq.tail_eq]
    rcases list_eq_nil_or_append_last L2 with rfl | ⟨M2, z, rfl⟩
    · have h1 : (L1 ++ [a]).getLast? = some a := List.getLast?_concat L1
      simp only [h1, if_pos rfl, List.append_nil]
      exact hprev
    · have hza : z ≠ a := fun h =>
        haL2 (h ▸ List.mem_append_right M2 (List.mem_cons_self z []))
      have h1 : (L1 ++ a :: (M2 ++ [z])).getLast? = some z := by
        rw [show L1 ++ a :: (M2 ++ [z]) = (L1 ++ a :: M2) ++ [z] by simp]
        exact List.getLast?_concat _
      have h2 : (L1 ++ (M2 ++ [z])).getLast? = some z := by
        rw [show L1 ++ (M2 ++ [z]) = (L1 ++ M2) ++ [z] by simp]
        exact List.getLast?_concat _
      rw [h1, if_neg (by simp [hza]), lastJoin_ne_nil pr (by simp), h2]
  · -- the removed node's links are cleared
    rw [remove_heap_sfind hnd a, if_pos rfl]
end Queue

namespace Queue

variable {T : Type}

theorem sfind_cons {K A : Type} [DecidableEq K] (k k' : K) (x : A)
    (m : List (K × A)) :
    sfind ((k, x) :: m) k' = if k' = k then some x else sfind m k' := rfl

/-- Appending a detached node (cleared links, not in the chain) to a
well-formed chain extends the chain at the back. -/
theorem push_node_spec {q : Queue T} {pr : Option Nat} {M : List Nat} {a : Nat}
    {nd : Node T}
    (hchain : chainSeg q.heap pr M none)
    (hhead : q.head = M.head?)
    (htail : q.tail = lastJoin pr M)
    (hMpr : M = [] → pr = none)
    (hnodupM : M.Nodup)
    (haM : a ∉ M)
    (hnd : sfind q.heap a = some nd)
    (hp0 : nd.prev = none) (hn0 : nd.next = none) :
    chainSeg (q.push_node a).heap pr (M ++ [a]) none ∧
      (q.push_node a).head = (M ++ [a]).head? ∧
      (q.push_node a).tail = some a := by
  rcases list_eq_nil_or_append_last M with rfl | ⟨M', t, rfl⟩
  · have hpr : pr = none := hMpr rfl
    have ht : q.tail = none := by
      rw [htail]
      simp only [lastJoin, hpr]
    rw [push_node_none_tail ht]
    refine ⟨⟨nd, hnd, by rw [hp0, hpr], by rw [hn0]; rfl, trivial⟩, rfl, rfl⟩
  · have ht : q.tail = some t := by
      rw [htail, lastJoin_ne_nil pr (by simp), List.getLast?_concat]
    have htM : t ∈ M' ++ [t] := by simp
    have hta : t ≠ a := fun h => haM (h ▸ htM)
    have htM' : t ∉ M' := by
      rw [List.nodup_append] at hnodupM
      exact fun h => hnodupM.2.2 h (List.mem_cons_self t [])
    rw [chainSeg_snoc] at hchain
    obtain ⟨hCM', tnd, htnd, htprev, htnext⟩ := hchain
    refine ⟨?_, ?_, push_node_some_tail ht⟩
    · rw [chainSeg_snoc]
      constructor
      · rw [chainSeg_snoc]
        constructor
        · refine chainSeg_congr (fun b hb => ?_) hCM'
          have hba : b ≠ a := fun h => haM (h ▸ List.mem_append_left [t] hb)
          have hbt : b ≠ t := fun h => htM' (h ▸ hb)
          rw [push_node_heap_sfind ht hta b, if_neg hba, if_neg hbt]
        · refine ⟨{ tnd with next := some a }, ?_, htprev, rfl⟩
          rw [push_node_heap_sfind ht hta t, if_neg hta, if_pos rfl, htnd]
          rfl
      · refine ⟨{ nd with prev := some t }, ?_, ?_, ?_⟩
        · rw [push_node_heap_sfind ht hta a, if_pos rfl, hnd]
          rfl
        · show some t = lastJoin pr (M' ++ [t])
          rw [lastJoin_ne_nil pr (by simp), List.getLast?_concat]
        · exact hn0
    · rw [push_node_some_head ht, hhead]
      obtain ⟨c, rest, hc⟩ := List.exists_cons_of_ne_nil
        (show M' ++ [t] ≠ [] by simp)
      rw [hc]
      simp

/-- Move-to-back (`remove` then `push_node` on a linked handle) preserves the
queue invariant whenever the element is not the sole element of a queue whose
front `prev` pointer dangles. -/
theorem move_to_back_QInv {q : Queue T} {pr : Option Nat} {L1 L2 : List Nat}
    {a : Nat} (hq : QInv q pr (L1 ++ a :: L2))
    (hside : L1 ++ L2 ≠ [] ∨ pr = none) :
    QInv (Queue.push_node (q.remove a) a) pr ((L1 ++ L2) ++ [a]) ∧
      (∀ b, (sfind (Queue.push_node (q.remove a) a).heap b).map Node.value =
        (sfind q.heap b).map Node.value) ∧
      keys (Queue.push_node (q.remove a) a).heap = keys q.heap ∧
      (Queue.push_node (q.remove a) a).fresh = q.fresh := by
  classical
  obtain ⟨nd, hnd, hchain', hhead', htail', hcleared⟩ := remove_spec hq
  have hmemL : ∀ b, b ∈ L1 ++ a :: L2 ↔ b ∈ (L1 ++ L2) ++ [a] := by
    intro b
    simp only [List.mem_append, List.mem_cons, List.mem_singleton]
    tauto
  have hnodupM : (L1 ++ L2).Nodup :=
    ((List.sublist_cons_self a L2).append_left L1).nodup hq.nodupL
  have haM : a ∉ L1 ++ L2 := by
    have h := hq.nodupL
    rw [List.nodup_append] at h
    rw [List.mem_append]
    rintro (h1 | h2)
    · exact h.2.2 h1 (List.mem_cons_self a L2)
    · exact (List.nodup_cons.mp h.2.1).1 h2
  have hkeys' : keys (q.remove a).heap = keys q.heap := remove_keys hnd
  have hfresh' : (q.remove a).fresh = q.fresh := remove_fresh hnd
  have hMpr : L1 ++ L2 = [] → pr = none := by
    intro h
    rcases hside with h1 | h1
    · exact absurd h h1
    · exact h1
  obtain ⟨hch2, hhd2, htl2⟩ := push_node_spec hchain' hhead' htail' hMpr
    hnodupM haM hcleared rfl rfl
  have hkeys2 : keys (Queue.push_node (q.remove a) a).heap = keys q.heap := by
    rw [push_node_keys, hkeys']
  have hfresh2 : (Queue.push_node (q.remove a) a).fresh = q.fresh := by
    rw [push_node_fresh, hfresh']
  have hvalue2 : ∀ b,
      (sfind (Queue.push_node (q.remove a) a).heap b).map Node.value =
        (sfind q.heap b).map Node.value := by
    intro b
    rw [push_node_value_map, remove_value_map hnd]
  refine ⟨⟨hch2, hhd2, by rw [htl2, List.getLast?_concat], ?_, ?_, ?_, ?_, ?_, ?_⟩,
    hvalue2, hkeys2, hfresh2⟩
  · rw [List.nodup_append]
    exact ⟨hnodupM, List.nodup_singleton a, fun b hb hba => haM ((List.mem_singleton.mp hba) ▸ hb)⟩
  · rw [hkeys2]
    exact hq.hnodup
  · intro p hp
    have hpk : p.1 ∈ keys q.heap := by
      rw [← hkeys2]
      exact List.mem_map_of_mem Prod.fst hp
    obtain ⟨p', hp', hpe⟩ := List.mem_map.mp hpk
    rw [← hmemL]
    exact hpe ▸ hq.dom_sub p' hp'
  · intro b hb
    rw [hfresh2]
    exact hq.bound b ((hmemL b).mpr hb)
  · intro d hd
    obtain ⟨h1, h2⟩ := hq.pr_ok d hd
    refine ⟨?_, by rw [hfresh2]; exact h2⟩
    rw [sfind_eq_none_iff] at h1 ⊢
    rw [hkeys2]
    exact h1
  · intro h
    exact absurd h (by simp)

end Queue

namespace Queue

variable {T : Type}

/-- A link-preserving heap update (such as stamping a record's access time)
preserves the queue invariant. -/
theorem QInv_hmod_value {q : Queue T} {pr : Option Nat} {L : List Nat}
    (hq : QInv q pr L) (a : Nat) (f : Node T → Node T)
    (hf : ∀ nd, (f nd).prev = nd.prev ∧ (f nd).next = nd.next) :
    QInv { q with heap := hmod q.heap a f } pr L := by
  refine ⟨chainSeg_hmod_value hf hq.chain, hq.head_eq, hq.tail_eq, hq.nodupL,
    ?_, ?_, hq.bound, ?_, hq.nil_pr⟩
  · rw [show keys (hmod q.heap a f) = keys q.heap from keys_hmod q.heap a f]
    exact hq.hnodup
  · intro p hp
    have hpk : p.1 ∈ keys q.heap := hmod_mem_keys hp
    obtain ⟨p', hp', hpe⟩ := List.mem_map.mp hpk
    exact hpe ▸ hq.dom_sub p' hp'
  · intro d hd
    obtain ⟨h1, h2⟩ := hq.pr_ok d hd
    refine ⟨?_, h2⟩
    rw [sfind_hmod]
    by_cases hda : d = a
    · subst hda
      rw [h1]
      simp
    · rw [if_neg hda, h1]

/-- Popping the front of a well-formed queue: the rest of the chain remains
well formed, but its front `prev` pointer now dangles at the popped address. -/
theorem pop_spec {q : Queue T} {pr : Option Nat} {a : Nat} {L' : List Nat}
    (hq : QInv q pr (a :: L')) :
    ∃ nd q', pop_node q = some (nd, q') ∧ sfind q.heap a = some nd ∧
      q'.heap = sdel q.heap a ∧ q'.fresh = q.fresh ∧
      QInv q' (if L' = [] then none else some a) L' := by
  obtain ⟨nd, hnd, hprev, hnext, hC⟩ := hq.chain
  have hhd : q.head = some a := by
    rw [hq.head_eq]; rfl
  have haL' : a ∉ L' := (List.nodup_cons.mp hq.nodupL).1
  have hdel_self : sfind (sdel q.heap a) a = none := sfind_sdel_self hq.hnodup a
  have hdom : ∀ p ∈ sdel q.heap a, p.1 ∈ L' := by
    intro p hp
    have hmem := hq.dom_sub p (sdel_subset p hp)
    rcases List.mem_cons.mp hmem with h | h
    · exfalso
      have := sfind_of_mem (keys_sdel_nodup hq.hnodup a) hp
      rw [h, hdel_self] at this
      cases this
    · exact h
  have hcongr : ∀ b ∈ L', sfind (sdel q.heap a) b = sfind q.heap b := by
    intro b hb
    exact sfind_sdel_ne (fun h => haL' (h ▸ hb))
  refine ⟨nd, ⟨sdel q.heap a, nd.next,
    if nd.next = none then none else q.tail, q.fresh⟩,
    by simp [pop_node, hhd, hnd], hnd, rfl, rfl, ?_⟩
  rcases L' with _ | ⟨c, L2'⟩
  · simp only [if_pos rfl]
    have hnone : nd.next = none := hnext
    refine ⟨trivial, by simp [hnone], by simp [hnone], List.nodup_nil,
      keys_sdel_nodup hq.hnodup a, by simpa using hdom, by simp, ?_, fun _ => rfl⟩
    intro d hd
    cases hd
  · simp only [if_neg (by simp : ¬(c :: L2' = []))]
    have hsome : nd.next = some c := hnext
    refine ⟨chainSeg_congr hcongr hC, by simp [hsome], ?_, ?_,
      keys_sdel_nodup hq.hnodup a, hdom, ?_, ?_, by simp⟩
    · show (if nd.next = none then none else q.tail) = (c :: L2').getLast?
      rw [hsome, if_neg (by simp), hq.tail_eq, List.getLast?_cons_cons]
    · exact (List.nodup_cons.mp hq.nodupL).2
    · intro b hb
      exact hq.bound b (List.mem_cons_of_mem a hb)
    · intro d hd
      injection hd with hd
      cases hd
      exact ⟨hdel_self, hq.bound a (List.mem_cons_self a (c :: L2'))⟩

/-- Pushing a freshly allocated node appends it at the back of the chain. -/
theorem push_spec {q : Queue T} {pr : Option Nat} {L : List Nat} (v : T)
    (hq : QInv q pr L) :
    (q.push v).2 = q.fresh ∧
      QInv (q.push v).1 pr (L ++ [q.fresh]) ∧
      (∀ b, b ≠ q.fresh →
        (sfind (q.push v).1.heap b).map Node.value = (sfind q.heap b).map Node.value) ∧
      (sfind (q.push v).1.heap q.fresh).map Node.value = some v ∧
      keys (q.push v).1.heap = q.fresh :: keys q.heap ∧
      (q.push v).1.fresh = q.fresh + 1 := by
  classical
  set a := q.fresh with ha
  set q1 : Queue T := { q with heap := (a, ⟨v, none, none⟩) :: q.heap, fresh := a + 1 }
    with hq1
  have hpush : q.push v = (q1.push_node a, a) := rfl
  have hkb : ∀ b ∈ keys q.heap, b < a := by
    intro b hb
    obtain ⟨p, hp, hpe⟩ := List.mem_map.mp hb
    exact hpe ▸ hq.bound p.1 (hq.dom_sub p hp)
  have haL : a ∉ L := fun h => lt_irrefl a (hq.bound a h)
  have hq1find : ∀ b, sfind q1.heap b =
      if b = a then some (⟨v, none, none⟩ : Node T) else sfind q.heap b := by
    intro b
    rfl
  have hchain1 : chainSeg q1.heap pr L none := by
    refine chainSeg_congr (fun b hb => ?_) hq.chain
    have hba : b ≠ a := fun h => haL (h ▸ hb)
    rw [hq1find, if_neg hba]
  have htail1 : q1.tail = lastJoin pr L := by
    show q.tail = _
    rcases hLe : L with _ | ⟨c, L''⟩
    · rw [hq.tail_eq, hLe]
      simp [lastJoin, hq.nil_pr hLe]
    · rw [hq.tail_eq, hLe, lastJoin_ne_nil pr (by simp)]
  have hnd1 : sfind q1.heap a = some ⟨v, none, none⟩ := by
    rw [hq1find, if_pos rfl]
  obtain ⟨hch2, hhd2, htl2⟩ := push_node_spec hchain1 (show q1.head = L.head? from hq.head_eq)
    htail1 hq.nil_pr hq.nodupL haL hnd1 rfl rfl
  have hkeys2 : keys (q1.push_node a).heap = a :: keys q.heap := by
    rw [push_node_keys]
    rfl
  have hfresh2 : (q1.push_node a).fresh = a + 1 := by
    rw [push_node_fresh]
  have hfst : (q.push v).1 = q1.push_node a := by rw [hpush]
  have hsnd : (q.push v).2 = a := by rw [hpush]
  rw [hfst, hsnd]
  refine ⟨rfl, ⟨hch2, hhd2, by rw [htl2, List.getLast?_concat], ?_, ?_, ?_, ?_, ?_, ?_⟩,
    ?_, ?_, hkeys2, hfresh2⟩
  · rw [List.nodup_append]
    refine ⟨hq.nodupL, List.nodup_singleton a, fun b hb hba => ?_⟩
    rw [List.mem_singleton] at hba
    exact haL (hba ▸ hb)
  · rw [hkeys2]
    exact List.nodup_cons.mpr ⟨fun h => lt_irrefl a (hkb a h), hq.hnodup⟩
  · intro p hp
    have hpk : p.1 ∈ keys (q1.push_node a).heap := List.mem_map_of_mem Prod.fst hp
    rw [hkeys2] at hpk
    rcases List.mem_cons.mp hpk with h | h
    · exact h ▸ List.mem_append_right L (List.mem_singleton.mpr rfl)
    · obtain ⟨p', hp', hpe⟩ := List.mem_map.mp h
      exact List.mem_append_left _ (hpe ▸ hq.dom_sub p' hp')
  · intro b hb
    rw [hfresh2]
    rcases List.mem_append.mp hb with h | h
    · exact lt_trans (hq.bound b h) (Nat.lt_succ_self a)
    · rw [List.mem_singleton.mp h]
      exact Nat.lt_succ_self a
  · intro d hd
    obtain ⟨h1, h2⟩ := hq.pr_ok d hd
    constructor
    · rw [sfind_eq_none_iff, hkeys2]
      intro hmem
      rcases List.mem_cons.mp hmem with h | h
      · rw [h, ← ha] at h2
        exact lt_irrefl a h2
      · rw [sfind_eq_none_iff] at h1
        exact h1 h
    · rw [hfresh2]
      exact lt_trans h2 (Nat.lt_succ_self a)
  · intro h
    exact absurd h (by simp)
  · intro b hb
    rw [push_node_value_map]
    show (sfind q1.heap b).map Node.value = _
    rw [hq1find, if_neg hb]
  · rw [push_node_value_map]
    show (sfind q1.heap a).map Node.value = _
    rw [hnd1]
    rfl

end Queue

/-! ### The corrupted regime, and iteration -/

namespace Queue

variable {T : Type}

/-- Every live node's `prev` pointer is non-null.  This holds in the corrupted
states reachable after refreshing the sole element of a previously popped
queue (see `CorruptSt`). -/
def AllPrevSome (h : Heap T) : Prop :=
  ∀ a nd, sfind h a = some nd → nd.prev ≠ none

/-- The corrupted regime: the head pointer is null while the tail is not,
so iteration observes an empty sequence although nodes remain linked behind
the unreachable tail.  Reached when `remove` runs on the sole element whose
`prev` dangles at a node freed by `pop_node`. -/
def CorruptSt (q : Queue T) : Prop :=
  q.head = none ∧ q.tail ≠ none ∧ AllPrevSome q.heap ∧
    (keys q.heap).Nodup ∧ ∀ b ∈ keys q.heap, b < q.fresh

theorem AllPrevSome_hmod {h : Heap T} {c : Nat} {f : Node T → Node T}
    (hc : AllPrevSome h) (hf : ∀ x, (f x).prev = x.prev ∨ (f x).prev ≠ none) :
    AllPrevSome (hmod h c f) := by
  intro b nb hb
  rw [sfind_hmod] at hb
  by_cases hbc : b = c
  · subst hbc
    rw [if_pos rfl] at hb
    cases hx : sfind h b with
    | none => rw [hx] at hb; cases hb
    | some x =>
      rw [hx] at hb
      injection hb with hb
      subst hb
      rcases hf x with h1 | h1
      · rw [h1]; exact hc b x hx
      · exact h1
  · rw [if_neg hbc] at hb
    exact hc b nb hb

/-- Values along an address list. -/
def valuesAlong (heap : Heap T) (L : List Nat) : List T :=
  L.filterMap (fun a => (sfind heap a).map Node.value)

theorem valuesAlong_congr {h1 h2 : Heap T} {L : List Nat}
    (he : ∀ b ∈ L, (sfind h2 b).map Node.value = (sfind h1 b).map Node.value) :
    valuesAlong h2 L = valuesAlong h1 L := by
  induction L with
  | nil => rfl
  | cons a L' ih =>
    simp only [valuesAlong, List.filterMap_cons] at ih ⊢
    rw [he a (List.mem_cons_self a L'),
      ih (fun b hb => he b (List.mem_cons_of_mem a hb))]

theorem valuesAlong_append (heap : Heap T) (L1 L2 : List Nat) :
    valuesAlong heap (L1 ++ L2) = valuesAlong heap L1 ++ valuesAlong heap L2 :=
  List.filterMap_append L1 L2 _

theorem walk_eq {heap : Heap T} :
    ∀ (L : List Nat) (pr : Option Nat) (fuel : Nat),
      chainSeg heap pr L none → L.length ≤ fuel →
      walk heap fuel L.head? = valuesAlong heap L := by
  intro L
  induction L with
  | nil =>
    intro pr fuel _ _
    cases fuel <;> rfl
  | cons a L' ih =>
    intro pr fuel hc hlen
    obtain ⟨nd, hnd, hprev, hnext, hrest⟩ := hc
    cases fuel with
    | zero => simp at hlen
    | succ f =>
      show walk heap (f + 1) (some a) = _
      have hn' : nd.next = L'.head? := by rw [hnext, seghd_none_eq_head]
      simp only [walk, hnd]
      rw [hn', ih (some a) f hrest (Nat.le_of_succ_le_succ hlen)]
      simp [valuesAlong, List.filterMap_cons, hnd]

theorem length_le_heap {q : Queue T} {pr : Option Nat} {L : List Nat}
    (hq : QInv q pr L) : L.length ≤ q.heap.length := by
  have hsub : L ⊆ keys q.heap := by
    intro b hb
    rw [← isSome_sfind_iff]
    exact chainSeg_isSome hq.chain b hb
  have := (List.subperm_of_subset hq.nodupL hsub).length_le
  simpa [keys] using this

/-- Under the invariant, iterating the queue reads off exactly the values
along `L`. -/
theorem toList_eq {q : Queue T} {pr : Option Nat} {L : List Nat}
    (hq : QInv q pr L) : q.toList = valuesAlong q.heap L := by
  show walk q.heap q.heap.length q.head = _
  rw [hq.head_eq]
  exact walk_eq L pr q.heap.length hq.chain (length_le_heap hq)

theorem toList_head_none {q : Queue T} (h : q.head = none) : q.toList = [] := by
  show walk q.heap q.heap.length q.head = []
  rw [h]
  cases q.heap.length <;> rfl

theorem peek_none {q : Queue T} (h : q.head = none) : q.peek = none := by
  simp [peek, h]

theorem peek_eq {q : Queue T} {pr : Option Nat} {a : Nat} {L' : List Nat}
    (hq : QInv q pr (a :: L')) :
    ∃ nd, sfind q.heap a = some nd ∧ q.peek = some nd.value := by
  have hhd : q.head = some a := by rw [hq.head_eq]; rfl
  obtain ⟨nd, hnd, -, -, -⟩ := hq.chain
  exact ⟨nd, hnd, by simp [peek, hhd, hnd]⟩

end Queue

namespace Queue

variable {T : Type}

/-- Refreshing the sole element of a queue whose front `prev` dangles
corrupts the queue: `remove` copies the stale pointer into `tail` and nulls
`head`; `push_node` then links the element behind the unreachable tail. -/
theorem move_to_back_corrupt {q : Queue T} {d a : Nat}
    (hq : QInv q (some d) [a]) :
    CorruptSt (Queue.push_node (q.remove a) a) := by
  have hq' : QInv q (some d) ([] ++ a :: []) := by simpa using hq
  obtain ⟨nd, hnd, hchain', hhead', htail', hcleared⟩ := remove_spec hq'
  have hhead2 : (q.remove a).head = none := by simpa using hhead'
  have htail2 : (q.remove a).tail = some d := by simpa [lastJoin] using htail'
  have hda : d ≠ a := by
    intro he
    obtain ⟨h1, -⟩ := hq.pr_ok d rfl
    rw [he, hnd] at h1
    cases h1
  have hkeys' : keys (q.remove a).heap = keys q.heap := remove_keys hnd
  have hfind_d : sfind (q.remove a).heap d = none := by
    rw [sfind_eq_none_iff, hkeys', ← sfind_eq_none_iff]
    exact (hq.pr_ok d rfl).1
  refine ⟨?_, ?_, ?_, ?_, ?_⟩
  · rw [push_node_some_head htail2]
    exact hhead2
  · rw [push_node_some_tail htail2]
    simp
  · intro b nb hb
    rw [push_node_heap_sfind htail2 hda b] at hb
    by_cases hba : b = a
    · rw [if_pos hba] at hb
      cases hx : sfind (q.remove a).heap a with
      | none => rw [hx] at hb; cases hb
      | some x =>
        rw [hx] at hb
        injection hb with hb
        subst hb
        simp
    · rw [if_neg hba] at hb
      by_cases hbd : b = d
      · rw [if_pos hbd, hfind_d] at hb
        cases hb
      · exfalso
        rw [if_neg hbd] at hb
        have hmem : b ∈ keys (q.remove a).heap := by
          rw [← isSome_sfind_iff, hb]
          rfl
        rw [hkeys'] at hmem
        obtain ⟨p, hp, hpe⟩ := List.mem_map.mp hmem
        have hmem2 := hq.dom_sub p hp
        rw [hpe] at hmem2
        exact hba (List.mem_singleton.mp hmem2)
  · rw [push_node_keys, hkeys']
    exact hq.hnodup
  · intro b hb
    rw [push_node_keys, hkeys'] at hb
    rw [push_node_fresh, remove_fresh hnd]
    obtain ⟨p, hp, hpe⟩ := List.mem_map.mp hb
    have hmem2 := hq.dom_sub p hp
    rw [hpe] at hmem2
    rw [List.mem_singleton.mp hmem2]
    exact hq.bound a (by simp)

/-- Removing an element (then deallocating it) preserves the invariant, except
for the sole-element-with-dangling-prev case. -/
theorem remove_del_QInv {q : Queue T} {pr : Option Nat} {L1 L2 : List Nat}
    {a : Nat} (hq : QInv q pr (L1 ++ a :: L2))
    (hside : L1 ++ L2 ≠ [] ∨ pr = none) :
    QInv { q.remove a with heap := sdel (q.remove a).heap a } pr (L1 ++ L2) ∧
      (∀ b, b ≠ a →
        (sfind (sdel (q.remove a).heap a) b).map Node.value =
          (sfind q.heap b).map Node.value) ∧
      sfind (sdel (q.remove a).heap a) a = none := by
  classical
  obtain ⟨nd, hnd, hchain', hhead', htail', hcleared⟩ := remove_spec hq
  have hkeys' : keys (q.remove a).heap = keys q.heap := remove_keys hnd
  have hnodup' : (keys (q.remove a).heap).Nodup := by
    rw [hkeys']
    exact hq.hnodup
  have hdelself : sfind (sdel (q.remove a).heap a) a = none :=
    sfind_sdel_self hnodup' a
  have hvm : ∀ b, b ≠ a →
      sfind (sdel (q.remove a).heap a) b = sfind (q.remove a).heap b :=
    fun b hb => sfind_sdel_ne hb
  have hnodupL := hq.nodupL
  rw [List.nodup_append] at hnodupL
  obtain ⟨hndL1, hndaL2, hdisj⟩ := hnodupL
  have haM : a ∉ L1 ++ L2 := by
    rw [List.mem_append]
    rintro (h1 | h2)
    · exact hdisj h1 (List.mem_cons_self a L2)
    · exact (List.nodup_cons.mp hndaL2).1 h2
  have hmemdel : ∀ b, b ∈ L1 ++ a :: L2 → b ≠ a → b ∈ L1 ++ L2 := by
    intro b hb hba
    rw [List.mem_append] at hb ⊢
    rcases hb with h | h
    · exact Or.inl h
    · rcases List.mem_cons.mp h with h | h
      · exact absurd h hba
      · exact Or.inr h
  refine ⟨⟨?_, hhead', ?_, ?_, keys_sdel_nodup hnodup' a, ?_, ?_, ?_, ?_⟩, ?_, hdelself⟩
  · refine chainSeg_congr (fun b hb => ?_) hchain'
    exact hvm b (fun h => haM (h ▸ hb))
  · show (q.remove a).tail = _
    rcases hE : L1 ++ L2 with _ | ⟨c, rest⟩
    · have hpr : pr = none := by
        rcases hside with h1 | h1
        · exact absurd hE h1
        · exact h1
      rw [htail', hE]
      simp [lastJoin, hpr]
    · rw [htail', hE, lastJoin_ne_nil pr (by simp)]
  · exact ((List.sublist_cons_self a L2).append_left L1).nodup hq.nodupL
  · intro p hp
    have hp' := sdel_subset p hp
    have hpk : p.1 ∈ keys q.heap := by
      rw [← hkeys']
      exact List.mem_map_of_mem Prod.fst hp'
    obtain ⟨p'', hp'', hpe⟩ := List.mem_map.mp hpk
    have hmem := hq.dom_sub p'' hp''
    rw [hpe] at hmem
    have hpa : p.1 ≠ a := by
      intro he
      have := sfind_of_mem (keys_sdel_nodup hnodup' a) hp
      rw [he, hdelself] at this
      cases this
    exact hmemdel p.1 hmem hpa
  · intro b hb
    show b < (q.remove a).fresh
    rw [remove_fresh hnd]
    exact hq.bound b (List.mem_append.mpr (by
      rcases List.mem_append.mp hb with h | h
      · exact Or.inl h
      · exact Or.inr (List.mem_cons_of_mem a h)))
  · intro e he
    obtain ⟨h1, h2⟩ := hq.pr_ok e he
    refine ⟨?_, ?_⟩
    case refine_2 =>
      show e < (q.remove a).fresh
      rw [remove_fresh hnd]
      exact h2
    by_cases hea : e = a
    · rw [hea]
      exact hdelself
    · rw [hvm e hea, sfind_eq_none_iff, hkeys', ← sfind_eq_none_iff]
      exact h1
  · intro h
    rcases hside with h1 | h1
    · exact absurd h h1
    · exact h1
  · intro b hb
    rw [hvm b hb]
    exact remove_value_map hnd b

/-- `remove` then deallocation of the sole element of a queue whose front
`prev` dangles leaves the stale pointer in `tail`: the corrupted regime. -/
theorem remove_del_corrupt {q : Queue T} {d a : Nat}
    (hq : QInv q (some d) [a]) :
    CorruptSt { q.remove a with heap := sdel (q.remove a).heap a } := by
  have hq' : QInv q (some d) ([] ++ a :: []) := by simpa using hq
  obtain ⟨nd, hnd, hchain', hhead', htail', hcleared⟩ := remove_spec hq'
  have hkeys' : keys (q.remove a).heap = keys q.heap := remove_keys hnd
  have hnodup' : (keys (q.remove a).heap).Nodup := by
    rw [hkeys']
    exact hq.hnodup
  have hdelself : sfind (sdel (q.remove a).heap a) a = none :=
    sfind_sdel_self hnodup' a
  refine ⟨by simpa using hhead', ?_, ?_, keys_sdel_nodup hnodup' a, ?_⟩
  · show (q.remove a).tail ≠ none
    rw [show (q.remove a).tail = some d by simpa [lastJoin] using htail']
    simp
  · intro b nb hb
    exfalso
    have hba : b ≠ a := by
      intro he
      rw [he, hdelself] at hb
      cases hb
    rw [sfind_sdel_ne hba] at hb
    have hmem : b ∈ keys (q.remove a).heap := by
      rw [← isSome_sfind_iff, hb]
      rfl
    rw [hkeys'] at hmem
    obtain ⟨p, hp, hpe⟩ := List.mem_map.mp hmem
    have hmem2 := hq.dom_sub p hp
    rw [hpe] at hmem2
    exact hba (List.mem_singleton.mp hmem2)
  · intro b hb
    show b < (q.remove a).fresh
    rw [remove_fresh hnd]
    have hb' := (keys_sdel_sublist _ a).mem hb
    rw [hkeys'] at hb'
    obtain ⟨p, hp, hpe⟩ := List.mem_map.mp hb'
    have hmem2 := hq.dom_sub p hp
    rw [hpe] at hmem2
    rw [List.mem_singleton.mp hmem2]
    exact hq.bound a (by simp)

end Queue

namespace Queue

variable {T : Type}

theorem corrupt_hmod_value {q : Queue T} (hc : CorruptSt q) (a : Nat)
    (f : Node T → Node T) (hf : ∀ nd, (f nd).prev = nd.prev) :
    CorruptSt { q with heap := hmod q.heap a f } := by
  obtain ⟨hhd, htl, hAP, hnodup, hbound⟩ := hc
  refine ⟨hhd, htl, AllPrevSome_hmod hAP (fun x => Or.inl (hf x)), ?_, ?_⟩
  · rw [show keys (hmod q.heap a f) = keys q.heap from keys_hmod q.heap a f]
    exact hnodup
  · intro b hb
    rw [show keys (hmod q.heap a f) = keys q.heap from keys_hmod q.heap a f] at hb
    exact hbound b hb

/-- Nodes other than the removed one keep a non-null `prev` through `remove`,
provided every live node had one. -/
theorem remove_prev_except {q : Queue T} {a : Nat} {nd : Node T}
    (hfa : sfind q.heap a = some nd) (hAP : AllPrevSome q.heap) :
    ∀ b nb, b ≠ a → sfind (q.remove a).heap b = some nb → nb.prev ≠ none := by
  intro b nb hba hb
  rw [remove_heap_sfind hfa b, if_neg hba] at hb
  cases hx : sfind q.heap b with
  | none => rw [hx] at hb; cases hb
  | some x =>
    rw [hx] at hb
    injection hb with hb
    subst hb
    by_cases hN : nd.next = some b
    · simp only [if_pos hN]
      exact hAP a nd hfa
    · simp only [if_neg hN]
      by_cases hP : nd.prev = some b
      · simp only [if_pos hP]
        exact hAP b x hx
      · simp only [if_neg hP]
        exact hAP b x hx

theorem corrupt_push {q : Queue T} (hc : CorruptSt q) (v : T) :
    CorruptSt (q.push v).1 := by
  obtain ⟨hhd, htl, hAP, hnodup, hbound⟩ := hc
  obtain ⟨t, ht⟩ := Option.ne_none_iff_exists'.mp htl
  set a := q.fresh with ha
  set q1 : Queue T := { q with heap := (a, ⟨v, none, none⟩) :: q.heap, fresh := a + 1 }
    with hq1
  have hpush : q.push v = (q1.push_node a, a) := rfl
  have hfst : (q.push v).1 = q1.push_node a := by rw [hpush]
  rw [hfst]
  have ht1 : q1.tail = some t := ht
  have hq1find : ∀ b, sfind q1.heap b =
      if b = a then some (⟨v, none, none⟩ : Node T) else sfind q.heap b :=
    fun b => rfl
  refine ⟨?_, ?_, ?_, ?_, ?_⟩
  · rw [push_node_some_head ht1]
    exact hhd
  · rw [push_node_some_tail ht1]
    simp
  · intro b nb hb
    have hheap2 : (q1.push_node a).heap =
        hmod (hmod q1.heap t (fun x => { x with next := some a })) a
          (fun x => { x with prev := some t }) := by
      simp [push_node, ht]
    rw [hheap2, sfind_hmod] at hb
    by_cases hba : b = a
    · rw [if_pos hba] at hb
      cases hx : sfind (hmod q1.heap t (fun x => { x with next := some a })) a with
      | none => rw [hx] at hb; cases hb
      | some y =>
        rw [hx] at hb
        injection hb with hb
        subst hb
        simp
    · rw [if_neg hba, sfind_hmod] at hb
      by_cases hbt : b = t
      · rw [if_pos hbt] at hb
        cases hx : sfind q1.heap t with
        | none => rw [hx] at hb; cases hb
        | some y =>
          rw [hx] at hb
          injection hb with hb
          subst hb
          show y.prev ≠ none
          have hta : t ≠ a := fun h => hba (hbt.trans h)
          rw [hq1find, if_neg hta] at hx
          exact hAP t y hx
      · rw [if_neg hbt, hq1find, if_neg hba] at hb
        exact hAP b nb hb
  · rw [push_node_keys]
    have hkq1 : keys q1.heap = a :: keys q.heap := rfl
    rw [hkq1]
    exact List.nodup_cons.mpr ⟨fun h => lt_irrefl a (hbound a h), hnodup⟩
  · intro b hb
    rw [push_node_keys] at hb
    rw [push_node_fresh]
    have hb' : b ∈ a :: keys q.heap := hb
    show b < a + 1
    rcases List.mem_cons.mp hb' with h | h
    · rw [h]
      exact Nat.lt_succ_self a
    · exact lt_trans (hbound b h) (Nat.lt_succ_self a)

theorem corrupt_move {q : Queue T} (hc : CorruptSt q) (a : Nat) :
    CorruptSt (Queue.push_node (q.remove a) a) := by
  obtain ⟨hhd, htl, hAP, hnodup, hbound⟩ := hc
  cases hfa : sfind q.heap a with
  | none =>
    rw [remove_absent hfa]
    obtain ⟨t, ht⟩ := Option.ne_none_iff_exists'.mp htl
    refine ⟨?_, ?_, ?_, ?_, ?_⟩
    · rw [push_node_some_head ht]
      exact hhd
    · rw [push_node_some_tail ht]
      simp
    · intro b nb hb
      have hheap2 : (q.push_node a).heap =
          hmod (hmod q.heap t (fun x => { x with next := some a })) a
            (fun x => { x with prev := some t }) := by
        simp [push_node, ht]
      rw [hheap2, sfind_hmod] at hb
      by_cases hba : b = a
      · rw [if_pos hba] at hb
        cases hx : sfind (hmod q.heap t (fun x => { x with next := some a })) a with
        | none => rw [hx] at hb; cases hb
        | some y =>
          rw [hx] at hb
          injection hb with hb
          subst hb
          simp
      · rw [if_neg hba, sfind_hmod] at hb
        by_cases hbt : b = t
        · rw [if_pos hbt] at hb
          cases hx : sfind q.heap t with
          | none => rw [hx] at hb; cases hb
          | some y =>
            rw [hx] at hb
            injection hb with hb
            subst hb
            show y.prev ≠ none
            exact hAP t y hx
        · rw [if_neg hbt] at hb
          exact hAP b nb hb
    · rw [push_node_keys]
      exact hnodup
    · intro b hb
      rw [push_node_keys] at hb
      rw [push_node_fresh]
      exact hbound b hb
  | some nd =>
    have htl' : (q.remove a).tail ≠ none := by
      rw [remove_tail hfa]
      split
      · exact hAP a nd hfa
      · exact htl
    obtain ⟨t', ht'⟩ := Option.ne_none_iff_exists'.mp htl'
    have hhd' : (q.remove a).head = none := by
      rw [remove_head hfa, hhd]
      simp
    have hAP' := remove_prev_except hfa hAP
    refine ⟨?_, ?_, ?_, ?_, ?_⟩
    · rw [push_node_some_head ht']
      exact hhd'
    · rw [push_node_some_tail ht']
      simp
    · intro b nb hb
      have hheap2 : ((q.remove a).push_node a).heap =
          hmod (hmod (q.remove a).heap t' (fun x => { x with next := some a })) a
            (fun x => { x with prev := some t' }) := by
        simp [push_node, ht']
      rw [hheap2, sfind_hmod] at hb
      by_cases hba : b = a
      · rw [if_pos hba] at hb
        cases hx : sfind (hmod (q.remove a).heap t'
            (fun x => { x with next := some a })) a with
        | none => rw [hx] at hb; cases hb
        | some y =>
          rw [hx] at hb
          injection hb with hb
          subst hb
          simp
      · rw [if_neg hba, sfind_hmod] at hb
        by_cases hbt : b = t'
        · rw [if_pos hbt] at hb
          cases hx : sfind (q.remove a).heap t' with
          | none => rw [hx] at hb; cases hb
          | some y =>
            rw [hx] at hb
            injection hb with hb
            subst hb
            show y.prev ≠ none
            exact hAP' t' y (fun h => hba (hbt.trans h)) hx
        · rw [if_neg hbt] at hb
          exact hAP' b nb hba hb
    · rw [push_node_keys, remove_keys hfa]
      exact hnodup
    · intro b hb
      rw [push_node_keys, remove_keys hfa] at hb
      rw [push_node_fresh, remove_fresh hfa]
      exact hbound b hb

theorem corrupt_remove_del {q : Queue T} (hc : CorruptSt q) {a : Nat}
    {nd : Node T} (hfa : sfind q.heap a = some nd) :
    CorruptSt { q.remove a with heap := sdel (q.remove a).heap a } := by
  obtain ⟨hhd, htl, hAP, hnodup, hbound⟩ := hc
  have hnodup' : (keys (q.remove a).heap).Nodup := by
    rw [remove_keys hfa]
    exact hnodup
  have hAP' := remove_prev_except hfa hAP
  refine ⟨?_, ?_, ?_, keys_sdel_nodup hnodup' a, ?_⟩
  · show (q.remove a).head = none
    rw [remove_head hfa, hhd]
    simp
  · show (q.remove a).tail ≠ none
    rw [remove_tail hfa]
    split
    · exact hAP a nd hfa
    · exact htl
  · intro b nb hb
    have hba : b ≠ a := by
      intro he
      rw [he, sfind_sdel_self hnodup' a] at hb
      cases hb
    rw [sfind_sdel_ne hba] at hb
    exact hAP' b nb hba hb
  · intro b hb
    show b < (q.remove a).fresh
    rw [remove_fresh hfa]
    have hb' := (keys_sdel_sublist _ a).mem hb
    rw [remove_keys hfa] at hb'
    exact hbound b hb'

end Queue

/-! ### Cache-level invariant -/

theorem sdel_absent {K A : Type} [DecidableEq K] {m : List (K × A)} {k : K}
    (h : sfind m k = none) : sdel m k = m := by
  induction m with
  | nil => rfl
  | cons p t ih =>
    obtain ⟨b, a⟩ := p
    by_cases hb : k = b
    · rw [hb, sfind] at h
      simp at h
    · rw [sfind, if_neg hb] at h
      rw [sdel, if_neg hb, ih h]

theorem mem_middle_iff {b a : Nat} {L1 L2 : List Nat} :
    b ∈ L1 ++ a :: L2 ↔ b ∈ (L1 ++ L2) ++ [a] := by
  simp only [List.mem_append, List.mem_cons, List.mem_singleton]
  tauto

namespace TLRUCache

variable {K V : Type} [DecidableEq K]

/-- The result state of the fresh-key branch of `insert` / `insert_new`. -/
def pushState (c : TLRUCache K V) (now : Nat) (key : K) (value : V) :
    TLRUCache K V :=
  { c with order := (Queue.push c.order ⟨key, value, now⟩).1,
           store := sinsert c.store key (Queue.push c.order ⟨key, value, now⟩).2 }

/-- The result state of the hit branches of `insert` and `fetch`: stamp the
record's `access` and move its node to the back. -/
def touchState (c : TLRUCache K V) (now : Nat) (old : Nat) : TLRUCache K V :=
  let q1 : Queue (Record K V) :=
    { c.order with
      heap := Queue.hmod c.order.heap old
        (fun nd => { nd with value := { nd.value with access := now } }) }
  { c with order := Queue.push_node (Queue.remove q1 old) old }

theorem insert_eq_push {c : TLRUCache K V} {now : Nat} {key : K} {value : V}
    (h : sfind c.store key = none) :
    insert c now key value = pushState c now key value := by
  simp [insert, h, pushState]

theorem insert_eq_touch {c : TLRUCache K V} {now : Nat} {key : K} {value : V}
    {old : Nat} (h : sfind c.store key = some old) :
    insert c now key value = touchState c now old := by
  simp [insert, h, touchState]

theorem fetch_eq_none_store {c : TLRUCache K V} {now : Nat} {key : K}
    (h : sfind c.store key = none) : fetch c now key = (none, c) := by
  simp [fetch, h]

theorem fetch_eq_dead {c : TLRUCache K V} {now : Nat} {key : K} {old : Nat}
    (h : sfind c.store key = some old)
    (h2 : sfind c.order.heap old = none) : fetch c now key = (none, c) := by
  simp [fetch, h, h2]

theorem fetch_eq_touch {c : TLRUCache K V} {now : Nat} {key : K} {old : Nat}
    {nd : Queue.Node (Record K V)} (h : sfind c.store key = some old)
    (h2 : sfind c.order.heap old = some nd) :
    fetch c now key = (some nd.value.value, touchState c now old) := by
  simp [fetch, h, h2, touchState]

theorem insert_new_eq {c : TLRUCache K V} {now : Nat} {gen : Nat → K}
    {fuel n : Nat} {value : V} (h : tryKeys c.store gen 0 fuel = some n) :
    insert_new c now gen fuel value =
      some (gen n, pushState c now (gen n) value) := by
  simp [insert_new, h, pushState]

theorem remove_eq_none {c : TLRUCache K V} {key : K}
    (h : sfind c.store key = none) : remove c key = (none, c) := by
  simp [remove, h]

/-- The result state of a successful `remove`. -/
def removeState (c : TLRUCache K V) (key : K) (old : Nat) : TLRUCache K V :=
  { c with store := sdel c.store key,
           order := { Queue.remove c.order old with
             heap := sdel (Queue.remove c.order old).heap old } }

theorem remove_eq_some {c : TLRUCache K V} {key : K} {old : Nat}
    {nd : Queue.Node (Record K V)} (h : sfind c.store key = some old)
    (h2 : sfind (Queue.remove c.order old).heap old = some nd) :
    remove c key = (some nd.value.value, removeState c key old) := by
  simp [remove, h, h2, removeState]

theorem remove_eq_dead {c : TLRUCache K V} {key : K} {old : Nat}
    (h : sfind c.store key = some old)
    (h2 : sfind (Queue.remove c.order old).heap old = none) :
    remove c key =
      (none,
        { c with store := sdel c.store key, order := Queue.remove c.order old }) := by
  simp [remove, h, h2]

/-- The index is consistent with the ordering structure: keys are unique, and
every index entry points at a live node in `L` whose record carries that key. -/
def StoreOk (c : TLRUCache K V) (L : List Nat) : Prop :=
  (keys c.store).Nodup ∧
  ∀ k a, sfind c.store k = some a →
    a ∈ L ∧ ∃ nd, sfind c.order.heap a = some nd ∧ nd.value.key = k

/-- The healthy regime of the cache at time `t`: the queue is well formed over
some address list, the index is consistent with it, the access stamps along it
are non-decreasing, and all stamps are at most `t`. -/
def HealthyAt (c : TLRUCache K V) (t : Nat) : Prop :=
  ∃ pr L, Queue.QInv c.order pr L ∧ StoreOk c L ∧
    List.Chain' (· ≤ ·)
      ((Queue.valuesAlong c.order.heap L).map Record.access) ∧
    ∀ r ∈ Queue.valuesAlong c.order.heap L, r.access ≤ t

/-- Every reachable cache state is either healthy or in the corrupted regime
(empty iteration). -/
def CacheInv (c : TLRUCache K V) (t : Nat) : Prop :=
  HealthyAt c t ∨ Queue.CorruptSt c.order

/-- States reachable from a fresh cache by the public operations under a
monotonic clock. -/
inductive Reach : TLRUCache K V → Nat → Prop
  | init (e : Nat) : Reach (TLRUCache.new K V e) 0
  | tick {c : TLRUCache K V} {t t' : Nat} : Reach c t → t ≤ t' → Reach c t'
  | step_insert {c : TLRUCache K V} {t : Nat} (k : K) (v : V) :
      Reach c t → Reach (insert c t k v) t
  | step_insert_new {c : TLRUCache K V} {t : Nat} {gen : Nat → K} {fuel : Nat}
      {v : V} {k : K} {c' : TLRUCache K V} :
      Reach c t → insert_new c t gen fuel v = some (k, c') → Reach c' t
  | step_fetch {c : TLRUCache K V} {t : Nat} (k : K) :
      Reach c t → Reach (fetch c t k).2 t
  | step_remove {c : TLRUCache K V} {t : Nat} (k : K) :
      Reach c t → Reach (remove c k).2 t
  | step_vacuum {c : TLRUCache K V} {t : Nat} :
      Reach c t → Reach (vacuum c t) t

end TLRUCache

theorem mem_of_getLast_opt {α : Type} {l : List α} {x : α}
    (h : l.getLast? = some x) : x ∈ l := by
  obtain ⟨hne, hx⟩ :=
    List.mem_getLast?_eq_getLast (show x ∈ l.getLast? from Option.mem_def.mpr h)
  rw [hx]
  exact List.getLast_mem hne

namespace TLRUCache

variable {K V : Type} [DecidableEq K]

/-- The fresh-key insertion branch preserves the cache invariant. -/
theorem push_preserves {c : TLRUCache K V} {t : Nat} {k : K} {v : V}
    (hc : CacheInv c t) (hfk : sfind c.store k = none) :
    CacheInv (pushState c t k v) t := by
  rcases hc with ⟨pr, L, hQ, hS, hsort, hacc⟩ | hcor
  · left
    obtain ⟨hsnd, hQ2, hvold, hvnew, hkeys2, hfresh2⟩ :=
      Queue.push_spec (⟨k, v, t⟩ : Record K V) hQ
    have hstore : (pushState c t k v).store = (k, c.order.fresh) :: c.store := by
      show sinsert c.store k (Queue.push c.order ⟨k, v, t⟩).2 = _
      rw [sinsert, sdel_absent hfk, hsnd]
    have hVA : Queue.valuesAlong (Queue.push c.order ⟨k, v, t⟩).1.heap
        (L ++ [c.order.fresh]) =
        Queue.valuesAlong c.order.heap L ++ [⟨k, v, t⟩] := by
      rw [Queue.valuesAlong_append]
      congr 1
      · exact Queue.valuesAlong_congr
          (fun b hb => hvold b (fun h => lt_irrefl b (h ▸ hQ.bound b hb)))
      · simp [Queue.valuesAlong, hvnew]
    refine ⟨pr, L ++ [c.order.fresh], hQ2, ⟨?_, ?_⟩, ?_, ?_⟩
    · rw [hstore]
      show (k :: keys c.store).Nodup
      refine List.nodup_cons.mpr ⟨?_, hS.1⟩
      rw [← sfind_eq_none_iff]
      exact hfk
    · intro k' a h'
      rw [hstore, Queue.sfind_cons] at h'
      by_cases hk' : k' = k
      · rw [if_pos hk'] at h'
        injection h' with h'
        subst h'
        refine ⟨List.mem_append_right L (by simp), ?_⟩
        obtain ⟨nd2, hnd2, hnd2v⟩ := Option.map_eq_some'.mp hvnew
        exact ⟨nd2, hnd2, by rw [hnd2v, hk']⟩
      · rw [if_neg hk'] at h'
        obtain ⟨hmem, nd', hnd', hkey'⟩ := hS.2 k' a h'
        refine ⟨List.mem_append_left _ hmem, ?_⟩
        have hne : a ≠ c.order.fresh := fun h => lt_irrefl a (h ▸ hQ.bound a hmem)
        have hov := hvold a hne
        rw [hnd'] at hov
        obtain ⟨nd2, hnd2, hnd2v⟩ := Option.map_eq_some'.mp hov
        exact ⟨nd2, hnd2, by rw [hnd2v, hkey']⟩
    · show List.Chain' (· ≤ ·)
        ((Queue.valuesAlong (Queue.push c.order ⟨k, v, t⟩).1.heap
          (L ++ [c.order.fresh])).map Record.access)
      rw [hVA, List.map_append, List.chain'_append]
      refine ⟨hsort, by simp, ?_⟩
      intro x hx y hy
      have hy' : t = y := by simpa using hy
      rw [← hy']
      have hx' := mem_of_getLast_opt (Option.mem_def.mp hx)
      obtain ⟨r, hr, hrx⟩ := List.mem_map.mp hx'
      rw [← hrx]
      exact hacc r hr
    · show ∀ r ∈ Queue.valuesAlong (Queue.push c.order ⟨k, v, t⟩).1.heap
        (L ++ [c.order.fresh]), r.access ≤ t
      rw [hVA]
      intro r hr
      rcases List.mem_append.mp hr with h | h
      · exact hacc r h
      · rw [List.mem_singleton.mp h]
  · right
    exact Queue.corrupt_push hcor ⟨k, v, t⟩

/-- The hit branches of `insert` and `fetch` (stamp access, move to back)
preserve the cache invariant (possibly switching to the corrupted regime). -/
theorem touch_preserves {c : TLRUCache K V} {t : Nat} {k : K} {old : Nat}
    (hc : CacheInv c t) (hfk : sfind c.store k = some old) :
    CacheInv (touchState c t old) t := by
  classical
  rcases hc with ⟨pr, L, hQ, hS, hsort, hacc⟩ | hcor
  · obtain ⟨hmem, nd0, hnd0, hkey0⟩ := hS.2 k old hfk
    obtain ⟨L1, L2, rfl⟩ := List.append_of_mem hmem
    have hQ1 := Queue.QInv_hmod_value hQ old
      (fun nd => { nd with value := { nd.value with access := t } })
      (fun nd => ⟨rfl, rfl⟩)
    set q1 : Queue (Record K V) :=
      { c.order with
        heap := Queue.hmod c.order.heap old
          (fun nd => { nd with value := { nd.value with access := t } }) } with hq1def
    have hq1find : ∀ b, sfind q1.heap b =
        if b = old then (sfind c.order.heap old).map
          (fun nd => { nd with value := { nd.value with access := t } })
        else sfind c.order.heap b := fun b => Queue.sfind_hmod _ _ _ b
    have haM : old ∉ L1 ++ L2 := by
      have h := hQ.nodupL
      rw [List.nodup_append] at h
      rw [List.mem_append]
      rintro (h1 | h2)
      · exact h.2.2 h1 (List.mem_cons_self old L2)
      · exact (List.nodup_cons.mp h.2.1).1 h2
    by_cases hcase : L1 ++ L2 = [] ∧ pr ≠ none
    · right
      obtain ⟨hnil, hprne⟩ := hcase
      obtain ⟨hL1, hL2⟩ := List.append_eq_nil.mp hnil
      obtain ⟨d, hd⟩ := Option.ne_none_iff_exists'.mp hprne
      subst hL1
      subst hL2
      rw [hd] at hQ1
      have hQ1' : Queue.QInv q1 (some d) [old] := by simpa using hQ1
      exact Queue.move_to_back_corrupt hQ1'
    · left
      have hside : L1 ++ L2 ≠ [] ∨ pr = none := by
        by_cases hn : L1 ++ L2 = []
        · right
          by_contra hpr
          exact hcase ⟨hn, hpr⟩
        · exact Or.inl hn
      obtain ⟨hQ2, hval2, hkeys2, hfresh2⟩ := Queue.move_to_back_QInv hQ1 hside
      have hvfin : ∀ b, b ≠ old →
          (sfind (Queue.push_node (Queue.remove q1 old) old).heap b).map
            Queue.Node.value = (sfind c.order.heap b).map Queue.Node.value := by
        intro b hb
        rw [hval2 b, hq1find b, if_neg hb]
      have hvold2 : (sfind (Queue.push_node (Queue.remove q1 old) old).heap old).map
          Queue.Node.value = some { nd0.value with access := t } := by
        rw [hval2 old, hq1find old, if_pos rfl, hnd0]
        rfl
      have hVA : Queue.valuesAlong (Queue.push_node (Queue.remove q1 old) old).heap
          ((L1 ++ L2) ++ [old]) =
          Queue.valuesAlong c.order.heap (L1 ++ L2) ++
            [{ nd0.value with access := t }] := by
        rw [Queue.valuesAlong_append]
        congr 1
        · exact Queue.valuesAlong_congr (fun b hb => hvfin b (fun h => haM (h ▸ hb)))
        · simp [Queue.valuesAlong, hvold2]
      have hsub : (Queue.valuesAlong c.order.heap (L1 ++ L2)).Sublist
          (Queue.valuesAlong c.order.heap (L1 ++ old :: L2)) :=
        List.Sublist.filterMap _ ((List.sublist_cons_self old L2).append_left L1)
      refine ⟨pr, (L1 ++ L2) ++ [old], hQ2, ⟨hS.1, ?_⟩, ?_, ?_⟩
      · intro k' a h'
        obtain ⟨hmem', nd', hnd', hkey'⟩ := hS.2 k' a h'
        refine ⟨mem_middle_iff.mp hmem', ?_⟩
        by_cases hao : a = old
        · subst hao
          obtain ⟨nd2, hnd2, hnd2v⟩ := Option.map_eq_some'.mp hvold2
          refine ⟨nd2, hnd2, ?_⟩
          rw [hnd2v]
          show nd0.value.key = k'
          rw [hnd0] at hnd'
          injection hnd' with hnd'
          rw [← hnd'] at hkey'
          exact hkey'
        · have hov := hvfin a hao
          rw [hnd'] at hov
          obtain ⟨nd2, hnd2, hnd2v⟩ := Option.map_eq_some'.mp hov
          exact ⟨nd2, hnd2, by rw [hnd2v, hkey']⟩
      · show List.Chain' (· ≤ ·)
          ((Queue.valuesAlong (Queue.push_node (Queue.remove q1 old) old).heap
            ((L1 ++ L2) ++ [old])).map Record.access)
        rw [hVA, List.map_append, List.chain'_append]
        refine ⟨hsort.sublist (hsub.map Record.access), by simp, ?_⟩
        intro x hx y hy
        have hy' : t = y := by simpa using hy
        rw [← hy']
        have hx' := mem_of_getLast_opt (Option.mem_def.mp hx)
        obtain ⟨r, hr, hrx⟩ := List.mem_map.mp hx'
        rw [← hrx]
        exact hacc r (hsub.mem hr)
      · show ∀ r ∈ Queue.valuesAlong (Queue.push_node (Queue.remove q1 old) old).heap
          ((L1 ++ L2) ++ [old]), r.access ≤ t
        rw [hVA]
        intro r hr
        rcases List.mem_append.mp hr with h | h
        · exact hacc r (hsub.mem h)
        · rw [List.mem_singleton.mp h]
  · right
    exact Queue.corrupt_move
      (Queue.corrupt_hmod_value hcor old
        (fun nd => { nd with value := { nd.value with access := t } })
        (fun nd => rfl)) old

end TLRUCache

namespace TLRUCache

variable {K V : Type} [DecidableEq K]

/-- `remove` preserves the cache invariant. -/
theorem remove_preserves {c : TLRUCache K V} {t : Nat} (k : K)
    (hc : CacheInv c t) : CacheInv (remove c k).2 t := by
  classical
  cases hfk : sfind c.store k with
  | none =>
    rw [remove_eq_none hfk]
    exact hc
  | some old =>
    rcases hc with ⟨pr, L, hQ, hS, hsort, hacc⟩ | hcor
    · obtain ⟨hmem, nd0, hnd0, hkey0⟩ := hS.2 k old hfk
      obtain ⟨L1, L2, rfl⟩ := List.append_of_mem hmem
      obtain ⟨nd, hnd, hchain', hhead', htail', hcleared⟩ := Queue.remove_spec hQ
      rw [remove_eq_some hfk hcleared]
      show CacheInv (removeState c k old) t
      by_cases hcase : L1 ++ L2 = [] ∧ pr ≠ none
      · right
        obtain ⟨hnil, hprne⟩ := hcase
        obtain ⟨hL1, hL2⟩ := List.append_eq_nil.mp hnil
        obtain ⟨d, hd⟩ := Option.ne_none_iff_exists'.mp hprne
        subst hL1
        subst hL2
        rw [hd] at hQ
        have hQ' : Queue.QInv c.order (some d) [old] := by simpa using hQ
        exact Queue.remove_del_corrupt hQ'
      · left
        have hside : L1 ++ L2 ≠ [] ∨ pr = none := by
          by_cases hn : L1 ++ L2 = []
          · right
            by_contra hpr
            exact hcase ⟨hn, hpr⟩
          · exact Or.inl hn
        obtain ⟨hQ2, hvdel, hdelnone⟩ := Queue.remove_del_QInv hQ hside
        have haM : old ∉ L1 ++ L2 := by
          have h := hQ.nodupL
          rw [List.nodup_append] at h
          rw [List.mem_append]
          rintro (h1 | h2)
          · exact h.2.2 h1 (List.mem_cons_self old L2)
          · exact (List.nodup_cons.mp h.2.1).1 h2
        have hsub : (Queue.valuesAlong c.order.heap (L1 ++ L2)).Sublist
            (Queue.valuesAlong c.order.heap (L1 ++ old :: L2)) :=
          List.Sublist.filterMap _ ((List.sublist_cons_self old L2).append_left L1)
        have hVA : Queue.valuesAlong (removeState c k old).order.heap (L1 ++ L2) =
            Queue.valuesAlong c.order.heap (L1 ++ L2) :=
          Queue.valuesAlong_congr (fun b hb => hvdel b (fun h => haM (h ▸ hb)))
        refine ⟨pr, L1 ++ L2, hQ2, ⟨keys_sdel_nodup hS.1 k, ?_⟩, ?_, ?_⟩
        · intro k' a h'
          have h2 : sfind (sdel c.store k) k' = some a := h'
          have hk'ne : k' ≠ k := by
            intro he
            rw [he, sfind_sdel_self hS.1 k] at h2
            cases h2
          rw [sfind_sdel_ne hk'ne] at h2
          obtain ⟨hmem', nd', hnd', hkey'⟩ := hS.2 k' a h2
          have hao : a ≠ old := by
            intro he
            rw [he, hnd0] at hnd'
            injection hnd' with hnd'
            rw [← hnd'] at hkey'
            exact hk'ne (hkey0 ▸ hkey'.symm)
          refine ⟨?_, ?_⟩
          · have := mem_middle_iff.mp hmem'
            rcases List.mem_append.mp this with h | h
            · exact h
            · exact absurd (List.mem_singleton.mp h) hao
          · have hov := hvdel a hao
            rw [hnd'] at hov
            obtain ⟨nd2, hnd2, hnd2v⟩ := Option.map_eq_some'.mp hov
            exact ⟨nd2, hnd2, by rw [hnd2v, hkey']⟩
        · show List.Chain' (· ≤ ·)
            ((Queue.valuesAlong (removeState c k old).order.heap (L1 ++ L2)).map
              Record.access)
          rw [hVA]
          exact hsort.sublist (hsub.map Record.access)
        · show ∀ r ∈ Queue.valuesAlong (removeState c k old).order.heap (L1 ++ L2),
            r.access ≤ t
          rw [hVA]
          intro r hr
          exact hacc r (hsub.mem hr)
    · cases hfo : sfind c.order.heap old with
      | none =>
        have hrm : Queue.remove c.order old = c.order := Queue.remove_absent hfo
        rw [remove_eq_dead hfk (by rw [hrm]; exact hfo)]
        right
        show Queue.CorruptSt (Queue.remove c.order old)
        rw [hrm]
        exact hcor
      | some nd =>
        have hcl : sfind (Queue.remove c.order old).heap old =
            some ⟨nd.value, none, none⟩ := by
          rw [Queue.remove_heap_sfind hfo old, if_pos rfl]
        rw [remove_eq_some hfk hcl]
        right
        exact Queue.corrupt_remove_del hcor hfo

/-- Each iteration of the vacuum loop preserves the cache invariant. -/
theorem vacuumFuel_preserves {t : Nat} :
    ∀ (fuel : Nat) (c : TLRUCache K V), CacheInv c t →
      CacheInv (vacuumFuel t c fuel) t := by
  intro fuel
  induction fuel with
  | zero =>
    intro c hc
    exact hc
  | succ f ih =>
    intro c hc
    cases hpk : Queue.peek c.order with
    | none =>
      have heq : vacuumFuel t c (f + 1) = c := by
        simp [vacuumFuel, hpk]
      rw [heq]
      exact hc
    | some r =>
      by_cases hexp : t - r.access < c.expiry
      · have heq : vacuumFuel t c (f + 1) = c := by
          simp [vacuumFuel, hpk, hexp]
        rw [heq]
        exact hc
      · rcases hc with ⟨pr, L, hQ, hS, hsort, hacc⟩ | hcor
        · cases hL : L with
          | nil =>
            exfalso
            subst hL
            rw [Queue.peek_none (by rw [hQ.head_eq]; rfl)] at hpk
            cases hpk
          | cons a L' =>
            subst hL
            obtain ⟨nd, q', hpop, hnd, hheap', hfresh', hQ'⟩ := Queue.pop_spec hQ
            have heq : vacuumFuel t c (f + 1) =
                vacuumFuel t
                  { c with
                    order := q'
                    store := sdel c.store nd.value.key } f := by
              simp [vacuumFuel, hpk, hexp, hpop]
            rw [heq]
            apply ih
            left
            have haL' : a ∉ L' := (List.nodup_cons.mp hQ.nodupL).1
            have hVA : Queue.valuesAlong q'.heap L' =
                Queue.valuesAlong c.order.heap L' := by
              refine Queue.valuesAlong_congr (fun b hb => ?_)
              have hba : b ≠ a := fun h => haL' (h ▸ hb)
              rw [hheap', sfind_sdel_ne hba]
            have hconsVA : Queue.valuesAlong c.order.heap (a :: L') =
                nd.value :: Queue.valuesAlong c.order.heap L' := by
              simp [Queue.valuesAlong, List.filterMap_cons, hnd]
            refine ⟨(if L' = [] then none else some a), L', hQ', ⟨?_, ?_⟩, ?_, ?_⟩
            · exact keys_sdel_nodup hS.1 _
            · intro k' a' h'
              have h2 : sfind (sdel c.store nd.value.key) k' = some a' := h'
              have hk'ne : k' ≠ nd.value.key := by
                intro he
                rw [he, sfind_sdel_self hS.1] at h2
                cases h2
              rw [sfind_sdel_ne hk'ne] at h2
              obtain ⟨hmem', nd', hnd', hkey'⟩ := hS.2 k' a' h2
              have ha'ne : a' ≠ a := by
                intro he
                rw [he, hnd] at hnd'
                injection hnd' with hnd'
                rw [← hnd'] at hkey'
                exact hk'ne hkey'.symm
              refine ⟨?_, ?_⟩
              · rcases List.mem_cons.mp hmem' with h | h
                · exact absurd h ha'ne
                · exact h
              · refine ⟨nd', ?_, hkey'⟩
                rw [hheap', sfind_sdel_ne ha'ne]
                exact hnd'
            · show List.Chain' (· ≤ ·)
                ((Queue.valuesAlong q'.heap L').map Record.access)
              rw [hVA]
              have := hsort
              rw [hconsVA] at this
              exact (List.chain'_cons'.mp this).2
            · intro r' hr'
              rw [hVA] at hr'
              refine hacc r' ?_
              rw [hconsVA]
              exact List.mem_cons_of_mem _ hr'
        · exfalso
          rw [Queue.peek_none hcor.1] at hpk
          cases hpk

theorem vacuum_preserves {c : TLRUCache K V} {t : Nat} (hc : CacheInv c t) :
    CacheInv (vacuum c t) t :=
  vacuumFuel_preserves c.order.heap.length c hc

theorem tryKeys_some {store : List (K × Nat)} {gen : Nat → K} :
    ∀ {fuel i n : Nat}, tryKeys store gen i fuel = some n →
      i ≤ n ∧ sfind store (gen n) = none ∧
        ∀ j, i ≤ j → j < n → (sfind store (gen j)).isSome := by
  intro fuel
  induction fuel with
  | zero =>
    intro i n h
    cases h
  | succ f ih =>
    intro i n h
    by_cases hsm : (sfind store (gen i)).isSome
    · rw [tryKeys, if_pos hsm] at h
      obtain ⟨h1, h2, h3⟩ := ih h
      refine ⟨le_trans (Nat.le_succ i) h1, h2, ?_⟩
      intro j hij hjn
      by_cases hji : j = i
      · rw [hji]
        exact hsm
      · exact h3 j (Nat.succ_le_of_lt (lt_of_le_of_ne hij (Ne.symm hji))) hjn
    · rw [tryKeys, if_neg hsm] at h
      injection h with h
      subst h
      refine ⟨le_refl i, Option.not_isSome_iff_eq_none.mp hsm, ?_⟩
      intro j hij hji
      exact absurd (lt_of_le_of_lt hij hji) (lt_irrefl i)

theorem tryKeys_isSome {store : List (K × Nat)} {gen : Nat → K} :
    ∀ {fuel i m : Nat}, i ≤ m → m < i + fuel → sfind store (gen m) = none →
      (tryKeys store gen i fuel).isSome := by
  intro fuel
  induction fuel with
  | zero =>
    intro i m him hmf _
    exact absurd (lt_of_le_of_lt him hmf) (by simp)
  | succ f ih =>
    intro i m him hmf hnone
    by_cases hsm : (sfind store (gen i)).isSome
    · rw [tryKeys, if_pos hsm]
      have hne : i ≠ m := by
        intro he
        rw [he, hnone] at hsm
        cases hsm
      refine ih (Nat.succ_le_of_lt (lt_of_le_of_ne him hne)) ?_ hnone
      omega
    · rw [tryKeys, if_neg hsm]
      rfl

theorem insert_preserves {c : TLRUCache K V} {t : Nat} (k : K) (v : V)
    (hc : CacheInv c t) : CacheInv (insert c t k v) t := by
  cases hfk : sfind c.store k with
  | none =>
    rw [insert_eq_push hfk]
    exact push_preserves hc hfk
  | some old =>
    rw [insert_eq_touch hfk]
    exact touch_preserves hc hfk

theorem fetch_preserves {c : TLRUCache K V} {t : Nat} (k : K)
    (hc : CacheInv c t) : CacheInv (fetch c t k).2 t := by
  cases hfk : sfind c.store k with
  | none =>
    rw [fetch_eq_none_store hfk]
    exact hc
  | some old =>
    cases hfo : sfind c.order.heap old with
    | none =>
      rw [fetch_eq_dead hfk hfo]
      exact hc
    | some nd =>
      rw [fetch_eq_touch hfk hfo]
      exact touch_preserves hc hfk

theorem insert_new_preserves {c c' : TLRUCache K V} {t : Nat} {gen : Nat → K}
    {fuel : Nat} {v : V} {k : K}
    (h : insert_new c t gen fuel v = some (k, c')) (hc : CacheInv c t) :
    CacheInv c' t := by
  cases htk : tryKeys c.store gen 0 fuel with
  | none =>
    rw [insert_new, htk] at h
    cases h
  | some n =>
    rw [insert_new_eq htk] at h
    injection h with h
    injection h with h1 h2
    rw [← h2]
    exact push_preserves hc (tryKeys_some htk).2.1

theorem cacheInv_mono {c : TLRUCache K V} {t t' : Nat} (hc : CacheInv c t)
    (ht : t ≤ t') : CacheInv c t' := by
  rcases hc with ⟨pr, L, hQ, hS, hsort, hacc⟩ | hcor
  · exact Or.inl ⟨pr, L, hQ, hS, hsort, fun r hr => le_trans (hacc r hr) ht⟩
  · exact Or.inr hcor

theorem new_inv (e : Nat) : CacheInv (TLRUCache.new K V e) 0 := by
  left
  refine ⟨none, [], ⟨trivial, rfl, rfl, List.nodup_nil, List.nodup_nil, ?_, ?_, ?_, fun _ => rfl⟩,
    ⟨List.nodup_nil, ?_⟩, List.chain'_nil, ?_⟩
  · intro p hp
    cases hp
  · intro a ha
    cases ha
  · intro d hd
    cases hd
  · intro k a h
    cases h
  · intro r hr
    cases hr

/-- Every reachable cache state satisfies the invariant. -/
theorem reach_inv {c : TLRUCache K V} {t : Nat} (h : Reach c t) :
    CacheInv c t := by
  induction h with
  | init e => exact new_inv e
  | tick _ ht ih => exact cacheInv_mono ih ht
  | step_insert k v _ ih => exact insert_preserves k v ih
  | step_insert_new _ hop ih => exact insert_new_preserves hop ih
  | step_fetch k _ ih => exact fetch_preserves k ih
  | step_remove k _ ih => exact remove_preserves k ih
  | step_vacuum _ ih => exact vacuum_preserves ih

end TLRUCache


/-! ### The vacuum scan, characterized -/

namespace TLRUCache

variable {K V : Type} [DecidableEq K]

/-- The callback vacuum loop pops exactly the maximal expired prefix, feeds
each evicted record to the callback in order, and deletes exactly the evicted
keys from the index. -/
theorem vacuumCb_spec {S : Type} (t : Nat) (cb : S → Record K V → S) :
    ∀ (fuel : Nat) (c : TLRUCache K V) (s : S) (pr : Option Nat) (L : List Nat),
      Queue.QInv c.order pr L → StoreOk c L →
      List.Chain' (· ≤ ·)
        ((Queue.valuesAlong c.order.heap L).map Record.access) →
      L.length ≤ fuel →
      Queue.toList (vacuumCbFuel t cb c s fuel).1.order =
        (Queue.toList c.order).dropWhile
          (fun rec => decide (c.expiry ≤ t - rec.access)) ∧
      (∀ rec ∈ Queue.toList (vacuumCbFuel t cb c s fuel).1.order,
        t - rec.access < c.expiry) ∧
      (∀ k, sfind (vacuumCbFuel t cb c s fuel).1.store k =
        if k ∈ ((Queue.toList c.order).takeWhile
            (fun rec => decide (c.expiry ≤ t - rec.access))).map Record.key
        then none else sfind c.store k) ∧
      (vacuumCbFuel t cb c s fuel).2 =
        ((Queue.toList c.order).takeWhile
          (fun rec => decide (c.expiry ≤ t - rec.access))).foldl cb s := by
  intro fuel
  induction fuel with
  | zero =>
    intro c s pr L hQ hS hsort hlen
    have hL : L = [] := List.length_eq_zero.mp (Nat.le_zero.mp hlen)
    subst hL
    have htl : Queue.toList c.order = [] := by
      rw [Queue.toList_eq hQ]
      rfl
    have hfst : (vacuumCbFuel t cb c s 0).1 = c := rfl
    have hsnd : (vacuumCbFuel t cb c s 0).2 = s := rfl
    rw [hfst, hsnd, htl]
    simp
  | succ f ih =>
    intro c s pr L hQ hS hsort hlen
    cases hL : L with
    | nil =>
      subst hL
      have hhd : c.order.head = none := by
        rw [hQ.head_eq]
        rfl
      have htl : Queue.toList c.order = [] := Queue.toList_head_none hhd
      have heq : vacuumCbFuel t cb c s (f + 1) = (c, s) := by
        simp [vacuumCbFuel, Queue.peek_none hhd]
      have hfst : (vacuumCbFuel t cb c s (f + 1)).1 = c := by rw [heq]
      have hsnd : (vacuumCbFuel t cb c s (f + 1)).2 = s := by rw [heq]
      rw [hfst, hsnd, htl]
      simp
    | cons a L' =>
      subst hL
      obtain ⟨nd, hnd, hpk⟩ := Queue.peek_eq hQ
      have hconsVA : Queue.valuesAlong c.order.heap (a :: L') =
          nd.value :: Queue.valuesAlong c.order.heap L' := by
        simp [Queue.valuesAlong, List.filterMap_cons, hnd]
      have htlc : Queue.toList c.order =
          nd.value :: Queue.valuesAlong c.order.heap L' := by
        rw [Queue.toList_eq hQ, hconsVA]
      by_cases hexp : t - nd.value.access < c.expiry
      · -- front not expired: the scan stops
        have heq : vacuumCbFuel t cb c s (f + 1) = (c, s) := by
          simp [vacuumCbFuel, hpk, hexp]
        have hfst : (vacuumCbFuel t cb c s (f + 1)).1 = c := by rw [heq]
        have hsnd : (vacuumCbFuel t cb c s (f + 1)).2 = s := by rw [heq]
        have hpfalse : (decide (c.expiry ≤ t - nd.value.access)) = false := by
          simp [Nat.not_le.mpr hexp]
        refine ⟨?_, ?_, ?_, ?_⟩
        · rw [hfst, htlc, List.dropWhile_cons, hpfalse]
          simp
        · rw [hfst]
          intro rec hrec
          rw [htlc] at hrec
          rcases List.mem_cons.mp hrec with h | h
          · rw [h]
            exact hexp
          · have hle : nd.value.access ≤ rec.access := by
              have hpw := List.pairwise_cons.mp (by
                rw [hconsVA] at hsort
                exact List.chain'_iff_pairwise.mp hsort)
              exact hpw.1 rec.access (List.mem_map_of_mem Record.access h)
            calc t - rec.access ≤ t - nd.value.access :=
                  Nat.sub_le_sub_left hle t
              _ < c.expiry := hexp
        · intro k
          rw [hfst, htlc, List.takeWhile_cons, hpfalse]
          simp
        · rw [hsnd, htlc, List.takeWhile_cons, hpfalse]
          simp
      · -- front expired: pop, invoke the callback, recurse
        obtain ⟨nd2, q', hpop, hnd2, hheap', hfresh', hQ'⟩ := Queue.pop_spec hQ
        have hnd2e : nd2 = nd := by
          rw [hnd] at hnd2
          injection hnd2 with h
          exact h.symm
        subst hnd2e
        have heq : vacuumCbFuel t cb c s (f + 1) =
            vacuumCbFuel t cb
              { c with
                order := q'
                store := sdel c.store nd2.value.key } (cb s nd2.value) f := by
          simp [vacuumCbFuel, hpk, hexp, hpop]
        have hptrue : (decide (c.expiry ≤ t - nd2.value.access)) = true := by
          simp [Nat.not_lt.mp hexp]
        have haL' : a ∉ L' := (List.nodup_cons.mp hQ.nodupL).1
        have hVA : Queue.valuesAlong q'.heap L' =
            Queue.valuesAlong c.order.heap L' := by
          refine Queue.valuesAlong_congr (fun b hb => ?_)
          have hba : b ≠ a := fun h => haL' (h ▸ hb)
          rw [hheap', sfind_sdel_ne hba]
        have hS1 : StoreOk
            { c with
              order := q'
              store := sdel c.store nd2.value.key } L' := by
          refine ⟨keys_sdel_nodup hS.1 _, ?_⟩
          intro k' a' h'
          have h2 : sfind (sdel c.store nd2.value.key) k' = some a' := h'
          have hk'ne : k' ≠ nd2.value.key := by
            intro he
            rw [he, sfind_sdel_self hS.1] at h2
            cases h2
          rw [sfind_sdel_ne hk'ne] at h2
          obtain ⟨hmem', nd', hnd', hkey'⟩ := hS.2 k' a' h2
          have ha'ne : a' ≠ a := by
            intro he
            rw [he, hnd2] at hnd'
            injection hnd' with hnd'
            rw [← hnd'] at hkey'
            exact hk'ne hkey'.symm
          refine ⟨?_, ?_⟩
          · rcases List.mem_cons.mp hmem' with h | h
            · exact absurd h ha'ne
            · exact h
          · refine ⟨nd', ?_, hkey'⟩
            show sfind q'.heap a' = some nd'
            rw [hheap', sfind_sdel_ne ha'ne]
            exact hnd'
        have hsort1 : List.Chain' (· ≤ ·)
            ((Queue.valuesAlong q'.heap L').map Record.access) := by
          rw [hVA]
          rw [hconsVA] at hsort
          exact (List.chain'_cons'.mp hsort).2
        have hlen1 : L'.length ≤ f := Nat.le_of_succ_le_succ (by simpa using hlen)
        obtain ⟨ih1, ih2, ih3, ih4⟩ :=
          ih { c with
                order := q'
                store := sdel c.store nd2.value.key } (cb s nd2.value)
            (if L' = [] then none else some a) L' hQ' hS1 hsort1 hlen1
        have htc1 : Queue.toList
            ({ c with
                order := q'
                store := sdel c.store nd2.value.key } : TLRUCache K V).order =
            Queue.valuesAlong c.order.heap L' := by
          show Queue.toList q' = _
          rw [Queue.toList_eq hQ', hVA]
        refine ⟨?_, ?_, ?_, ?_⟩
        · rw [heq, ih1, htc1, htlc, List.dropWhile_cons, hptrue]
          simp
        · intro rec hrec
          rw [heq] at hrec
          exact ih2 rec hrec
        · intro k
          rw [heq, ih3 k, htc1, htlc, List.takeWhile_cons, hptrue]
          simp only [if_true, List.map_cons, List.mem_cons]
          by_cases hk1 : k ∈ (List.takeWhile
              (fun rec => decide (c.expiry ≤ t - rec.access))
              (Queue.valuesAlong c.order.heap L')).map Record.key
          · rw [if_pos hk1, if_pos (Or.inr hk1)]
          · rw [if_neg hk1]
            by_cases hk0 : k = nd2.value.key
            · rw [if_pos (Or.inl hk0), hk0]
              show sfind (sdel c.store nd2.value.key) nd2.value.key = none
              exact sfind_sdel_self hS.1 _
            · have hnotmem : ¬(k = nd2.value.key ∨ k ∈ (List.takeWhile
                  (fun rec => decide (c.expiry ≤ t - rec.access))
                  (Queue.valuesAlong c.order.heap L')).map Record.key) := by
                rintro (h | h)
                · exact hk0 h
                · exact hk1 h
              rw [if_neg hnotmem]
              show sfind (sdel c.store nd2.value.key) k = sfind c.store k
              exact sfind_sdel_ne hk0
        · rw [heq, ih4, htc1, htlc, List.takeWhile_cons, hptrue]
          simp

end TLRUCache

namespace TLRUCache

variable {K V : Type} [DecidableEq K]

/-- `vacuumFuel` is the callback loop with a trivial callback. -/
theorem vacuumFuel_eq_cb (t : Nat) :
    ∀ (fuel : Nat) (c : TLRUCache K V),
      vacuumFuel t c fuel =
        (vacuumCbFuel t (fun (_ : Unit) _ => ()) c () fuel).1 := by
  intro fuel
  induction fuel with
  | zero => intro c; rfl
  | succ f ih =>
    intro c
    show vacuumFuel t c (f + 1) =
      (vacuumCbFuel t (fun (_ : Unit) _ => ()) c () (f + 1)).1
    rw [vacuumFuel, vacuumCbFuel]
    cases hpk : Queue.peek c.order with
    | none => rfl
    | some r =>
      by_cases hexp : t - r.access < c.expiry
      · simp [hexp]
      · simp only [hexp, if_false]
        cases hpop : Queue.pop_node c.order with
        | none => rfl
        | some p =>
          obtain ⟨nd, q'⟩ := p
          exact ih _

end TLRUCache

/-- C4: on any state satisfying the structural and recency-ordering
invariants, `vacuum` at time `now` drops exactly the maximal front prefix of
expired records (elapsed `now - access ≥ expiry`, inclusive) from the
ordering structure, stopping at the first non-expired front element; every
surviving record is non-expired, and the index loses exactly the evicted
keys. -/
theorem C4_vacuum_correct (c : TLRUCache Nat Nat) (now : Nat)
    (pr : Option Nat) (L : List Nat)
    (hQ : Queue.QInv c.order pr L) (hS : TLRUCache.StoreOk c L)
    (hsort : List.Chain' (· ≤ ·)
      ((Queue.valuesAlong c.order.heap L).map Record.access)) :
    Queue.toList (TLRUCache.vacuum c now).order =
      (Queue.toList c.order).dropWhile
        (fun rec => decide (c.expiry ≤ now - rec.access)) ∧
    (∀ rec ∈ Queue.toList (TLRUCache.vacuum c now).order,
      now - rec.access < c.expiry) ∧
    (∀ k, sfind (TLRUCache.vacuum c now).store k =
      if k ∈ ((Queue.toList c.order).takeWhile
          (fun rec => decide (c.expiry ≤ now - rec.access))).map Record.key
      then none else sfind c.store k) := by
  have hlen : L.length ≤ c.order.heap.length := Queue.length_le_heap hQ
  obtain ⟨h1, h2, h3, _⟩ :=
    TLRUCache.vacuumCb_spec now (fun (_ : Unit) _ => ())
      c.order.heap.length c () pr L hQ hS hsort hlen
  have hv : TLRUCache.vacuum c now =
      (TLRUCache.vacuumCbFuel now (fun (_ : Unit) _ => ()) c ()
        c.order.heap.length).1 :=
    TLRUCache.vacuumFuel_eq_cb now c.order.heap.length c
  rw [hv]
  exact ⟨h1, h2, h3⟩

/-- A concrete two-record cache (expiry 2; accesses 0 and 5) used to exercise
the vacuum theorem at time 4, where the front record is expired and the back
one is not. -/
def cW4 : TLRUCache Nat Nat :=
  { expiry := 2
    store := [(10, 0), (11, 1)]
    order :=
      { heap := [(0, ⟨⟨10, 100, 0⟩, none, some 1⟩),
                 (1, ⟨⟨11, 200, 5⟩, some 0, none⟩)]
        head := some 0
        tail := some 1
        fresh := 2 } }

theorem C4_vacuum_correct_witness :
    (Queue.QInv cW4.order none [0, 1] ∧ TLRUCache.StoreOk cW4 [0, 1] ∧
      List.Chain' (· ≤ ·)
        ((Queue.valuesAlong cW4.order.heap [0, 1]).map Record.access)) ∧
    (Queue.toList (TLRUCache.vacuum cW4 4).order =
        (Queue.toList cW4.order).dropWhile
          (fun rec => decide (cW4.expiry ≤ 4 - rec.access)) ∧
      (∀ rec ∈ Queue.toList (TLRUCache.vacuum cW4 4).order,
        4 - rec.access < cW4.expiry) ∧
      (∀ k, sfind (TLRUCache.vacuum cW4 4).store k =
        if k ∈ ((Queue.toList cW4.order).takeWhile
            (fun rec => decide (cW4.expiry ≤ 4 - rec.access))).map Record.key
        then none else sfind cW4.store k)) := by
  have hQ : Queue.QInv cW4.order none [0, 1] := by
    refine ⟨?_, rfl, rfl, by decide, by decide, by decide, by decide,
      (fun d h => nomatch h), (fun h => nomatch h)⟩
    exact ⟨⟨⟨10, 100, 0⟩, none, some 1⟩, rfl, rfl, rfl,
      ⟨⟨11, 200, 5⟩, some 0, none⟩, rfl, rfl, rfl, trivial⟩
  have hS : TLRUCache.StoreOk cW4 [0, 1] := by
    refine ⟨by decide, ?_⟩
    intro k a h
    by_cases h10 : k = 10
    · subst h10
      have ha : a = 0 := by simpa [sfind] using h.symm
      subst ha
      exact ⟨by decide, ⟨⟨10, 100, 0⟩, none, some 1⟩, rfl, rfl⟩
    · by_cases h11 : k = 11
      · subst h11
        have ha : a = 1 := by simpa [sfind] using h.symm
        subst ha
        exact ⟨by decide, ⟨⟨11, 200, 5⟩, some 0, none⟩, rfl, rfl⟩
      · exfalso
        have : sfind cW4.store k = none := by simp [cW4, sfind, h10, h11]
        rw [this] at h
        cases h
  have hsort : List.Chain' (· ≤ ·)
      ((Queue.valuesAlong cW4.order.heap [0, 1]).map Record.access) := by
    have hv : (Queue.valuesAlong cW4.order.heap [0, 1]).map Record.access =
        [0, 5] := rfl
    rw [hv]
    exact List.chain'_cons.mpr ⟨Nat.zero_le 5, List.chain'_singleton 5⟩
  exact ⟨⟨hQ, hS, hsort⟩, C4_vacuum_correct cW4 4 none [0, 1] hQ hS hsort⟩

/-- An index with unique keys that survives a fold of deletions was never
deleted and is unchanged. -/
theorem sfind_foldl_sdel {K A : Type} [DecidableEq K] :
    ∀ (xs : List K) (m : List (K × A)) (i : K) (v : A),
      (keys m).Nodup → sfind (List.foldl sdel m xs) i = some v →
      i ∉ xs ∧ sfind m i = some v := by
  intro xs
  induction xs with
  | nil => intro m i v _ h; exact ⟨List.not_mem_nil i, h⟩
  | cons x xs ih =>
    intro m i v hnd h
    obtain ⟨hnotin, h2⟩ := ih (sdel m x) i v (keys_sdel_nodup hnd x) h
    have hix : i ≠ x := by
      intro he
      rw [he, sfind_sdel_self hnd x] at h2
      cases h2
    rw [sfind_sdel_ne hix] at h2
    exact ⟨fun hm => (List.mem_cons.mp hm).elim hix hnotin, h2⟩

/-- C5: the uniqueness layer's vacuum delegates to the cache layer's
callback-taking vacuum; the callback is invoked with every evicted record in
order, deleting `value_ids[identity of the evicted value]`, so that afterwards
no secondary-index entry names a key the vacuum evicted. -/
theorem C5_vacuum_callback_cleanup (u : UniqueTLRUCache Nat Nat Nat)
    (vid : Nat → Nat) (now : Nat) (pr : Option Nat) (L : List Nat)
    (hQ : Queue.QInv u.cache.order pr L)
    (hS : TLRUCache.StoreOk u.cache L)
    (hsort : List.Chain' (· ≤ ·)
      ((Queue.valuesAlong u.cache.order.heap L).map Record.access))
    (hrev : ∀ a ∈ L, ∃ k, sfind u.cache.store k = some a)
    (hids : (keys u.value_ids).Nodup)
    (hcons : ∀ i k', sfind u.value_ids i = some k' →
      ∀ a nd, sfind u.cache.store k' = some a →
        sfind u.cache.order.heap a = some nd → vid nd.value.value = i) :
    (UniqueTLRUCache.vacuum vid u now).value_ids =
      ((Queue.toList u.cache.order).takeWhile
        (fun rec => decide (u.cache.expiry ≤ now - rec.access))).foldl
        (fun ids rec => sdel ids (vid rec.value)) u.value_ids ∧
    ∀ i k', sfind (UniqueTLRUCache.vacuum vid u now).value_ids i = some k' →
      k' ∉ ((Queue.toList u.cache.order).takeWhile
        (fun rec => decide (u.cache.expiry ≤ now - rec.access))).map
          Record.key := by
  have hlen : L.length ≤ u.cache.order.heap.length := Queue.length_le_heap hQ
  obtain ⟨-, -, -, h4⟩ :=
    TLRUCache.vacuumCb_spec now
      (fun ids rec => sdel ids (vid rec.value))
      u.cache.order.heap.length u.cache u.value_ids pr L hQ hS hsort hlen
  have hval : (UniqueTLRUCache.vacuum vid u now).value_ids =
      (TLRUCache.vacuumCbFuel now (fun ids rec => sdel ids (vid rec.value))
        u.cache u.value_ids u.cache.order.heap.length).2 := rfl
  refine ⟨by rw [hval, h4], ?_⟩
  intro i k' hI hmem
  set evicted := (Queue.toList u.cache.order).takeWhile
    (fun rec => decide (u.cache.expiry ≤ now - rec.access)) with hev
  rw [hval, h4] at hI
  have hfold : evicted.foldl (fun ids rec => sdel ids (vid rec.value))
      u.value_ids =
      List.foldl sdel u.value_ids (evicted.map (fun rec => vid rec.value)) := by
    rw [List.foldl_map]
  rw [hfold] at hI
  obtain ⟨hnotin, hfind⟩ :=
    sfind_foldl_sdel (evicted.map (fun rec => vid rec.value))
      u.value_ids i k' hids hI
  obtain ⟨rec0, hrec0, hkey0⟩ := List.mem_map.mp hmem
  have hrec0' : rec0 ∈ Queue.toList u.cache.order :=
    (List.takeWhile_sublist _).mem hrec0
  rw [Queue.toList_eq hQ] at hrec0'
  obtain ⟨a, haL, hmap⟩ := List.mem_filterMap.mp hrec0'
  obtain ⟨nd, hnd, hndv⟩ := Option.map_eq_some'.mp hmap
  obtain ⟨k1, hk1⟩ := hrev a haL
  obtain ⟨-, nd1, hnd1, hkey1⟩ := hS.2 k1 a hk1
  have hnd1e : nd1 = nd := by
    rw [hnd] at hnd1
    injection hnd1 with h
    exact h.symm
  have hk1k' : k1 = k' := by
    rw [← hkey1, hnd1e, hndv, hkey0]
  rw [hk1k'] at hk1
  have hvid : vid nd.value.value = i := hcons i k' hfind a nd hk1 hnd
  apply hnotin
  refine List.mem_map.mpr ⟨rec0, hrec0, ?_⟩
  rw [← hndv, hvid]

/-- A concrete uniqueness-layer cache: one record (key 10, value 107, access 0,
identity 107 % 100 = 7) with a matching secondary-index entry. -/
def uW5 : UniqueTLRUCache Nat Nat Nat :=
  { value_ids := [(7, 10)]
    cache :=
      { expiry := 2
        store := [(10, 0)]
        order :=
          { heap := [(0, ⟨⟨10, 107, 0⟩, none, none⟩)]
            head := some 0
            tail := some 0
            fresh := 1 } } }

theorem C5_vacuum_callback_cleanup_witness :
    (Queue.QInv uW5.cache.order none [0] ∧
      TLRUCache.StoreOk uW5.cache [0] ∧
      List.Chain' (· ≤ ·)
        ((Queue.valuesAlong uW5.cache.order.heap [0]).map Record.access) ∧
      (∀ a ∈ [0], ∃ k, sfind uW5.cache.store k = some a) ∧
      (keys uW5.value_ids).Nodup ∧
      (∀ i k', sfind uW5.value_ids i = some k' →
        ∀ a nd, sfind uW5.cache.store k' = some a →
          sfind uW5.cache.order.heap a = some nd →
          (fun v => v % 100) nd.value.value = i)) ∧
    ((UniqueTLRUCache.vacuum (fun v => v % 100) uW5 4).value_ids =
      ((Queue.toList uW5.cache.order).takeWhile
        (fun rec => decide (uW5.cache.expiry ≤ 4 - rec.access))).foldl
        (fun ids rec => sdel ids ((fun v => v % 100) rec.value))
        uW5.value_ids ∧
     ∀ i k',
       sfind (UniqueTLRUCache.vacuum (fun v => v % 100) uW5 4).value_ids i =
         some k' →
       k' ∉ ((Queue.toList uW5.cache.order).takeWhile
         (fun rec => decide (uW5.cache.expiry ≤ 4 - rec.access))).map
           Record.key) := by
  have hQ : Queue.QInv uW5.cache.order none [0] := by
    refine ⟨?_, rfl, rfl, by decide, by decide, by decide, by decide,
      (fun d h => nomatch h), (fun h => rfl)⟩
    exact ⟨⟨⟨10, 107, 0⟩, none, none⟩, rfl, rfl, rfl, trivial⟩
  have hS : TLRUCache.StoreOk uW5.cache [0] := by
    refine ⟨by decide, ?_⟩
    intro k a h
    by_cases h10 : k = 10
    · subst h10
      have ha : a = 0 := by simpa [sfind] using h.symm
      subst ha
      exact ⟨by decide, ⟨⟨10, 107, 0⟩, none, none⟩, rfl, rfl⟩
    · exfalso
      have hn : sfind uW5.cache.store k = none := by simp [uW5, sfind, h10]
      rw [hn] at h
      cases h
  have hsort : List.Chain' (· ≤ ·)
      ((Queue.valuesAlong uW5.cache.order.heap [0]).map Record.access) := by
    have hv : (Queue.valuesAlong uW5.cache.order.heap [0]).map Record.access =
        [0] := rfl
    rw [hv]
    exact List.chain'_singleton 0
  have hrev : ∀ a ∈ [0], ∃ k, sfind uW5.cache.store k = some a := by
    intro a ha
    rw [List.mem_singleton] at ha
    subst ha
    exact ⟨10, rfl⟩
  have hids : (keys uW5.value_ids).Nodup := by decide
  have hcons : ∀ i k', sfind uW5.value_ids i = some k' →
      ∀ a nd, sfind uW5.cache.store k' = some a →
        sfind uW5.cache.order.heap a = some nd →
        (fun v => v % 100) nd.value.value = i := by
    intro i k' h a nd h2 h3
    by_cases hi : i = 7
    · subst hi
      have hk' : k' = 10 := by simpa [sfind] using h.symm
      subst hk'
      have ha : a = 0 := by simpa [sfind] using h2.symm
      subst ha
      have hnd : nd = ⟨⟨10, 107, 0⟩, none, none⟩ := by
        simpa [sfind] using h3.symm
      subst hnd
      rfl
    · exfalso
      have hn : sfind uW5.value_ids i = none := by simp [uW5, sfind, hi]
      rw [hn] at h
      cases h
  exact ⟨⟨hQ, hS, hsort, hrev, hids, hcons⟩,
    C5_vacuum_callback_cleanup uW5 (fun v => v % 100) 4 none [0]
      hQ hS hsort hrev hids hcons⟩

/-- C2: in every cache state reachable by insert, insert_new, fetch, remove
and vacuum from an empty cache under a monotonic clock, the access stamps read
front-to-back over the ordering structure are non-decreasing. -/
theorem C2_recency_ordering {K V : Type} [DecidableEq K]
    {c : TLRUCache K V} {t : Nat} (h : TLRUCache.Reach c t) :
    List.Chain' (· ≤ ·) ((Queue.toList c.order).map Record.access) := by
  rcases TLRUCache.reach_inv h with ⟨pr, L, hQ, hS, hsort, hacc⟩ | hcor
  · rw [Queue.toList_eq hQ]
    exact hsort
  · rw [Queue.toList_head_none hcor.1]
    simp

theorem C2_recency_ordering_witness :
    TLRUCache.Reach
      (TLRUCache.insert
        (TLRUCache.insert (TLRUCache.new Nat Nat 5) 0 0 10) 1 1 20) 1 ∧
    List.Chain' (· ≤ ·)
      ((Queue.toList
        (TLRUCache.insert
          (TLRUCache.insert (TLRUCache.new Nat Nat 5) 0 0 10) 1 1 20).order).map
        Record.access) :=
  ⟨TLRUCache.Reach.step_insert 1 20
    (TLRUCache.Reach.tick (TLRUCache.Reach.step_insert 0 10
      (TLRUCache.Reach.init 5)) (Nat.le_succ 0)),
   C2_recency_ordering
    (TLRUCache.Reach.step_insert 1 20
      (TLRUCache.Reach.tick (TLRUCache.Reach.step_insert 0 10
        (TLRUCache.Reach.init 5)) (Nat.le_succ 0)))⟩

/-- C7: when the generator yields a free key within `fuel` tries,
`insert_new` retries silently past every colliding key, then appends a fresh
record carrying the generated key, the supplied value and the current
timestamp at the tail, registers it in the index, and returns the generated
key; all pre-existing records (including their access stamps) and all other
index entries are untouched. -/
theorem C7_insert_new_spec {K V : Type} [DecidableEq K]
    (c : TLRUCache K V) (now : Nat) (gen : Nat → K) (fuel : Nat) (v : V)
    (pr : Option Nat) (L : List Nat)
    (hQ : Queue.QInv c.order pr L)
    (m : Nat) (hm : m < fuel) (hfree : sfind c.store (gen m) = none) :
    ∃ n c', TLRUCache.insert_new c now gen fuel v = some (gen n, c') ∧
      sfind c.store (gen n) = none ∧
      (∀ j, j < n → (sfind c.store (gen j)).isSome) ∧
      Queue.toList c'.order =
        Queue.toList c.order ++ [(⟨gen n, v, now⟩ : Record K V)] ∧
      (sfind c'.store (gen n)).isSome ∧
      (∀ k, k ≠ gen n → sfind c'.store k = sfind c.store k) := by
  have hsm : (TLRUCache.tryKeys c.store gen 0 fuel).isSome :=
    TLRUCache.tryKeys_isSome (Nat.zero_le m) (by simpa using hm) hfree
  obtain ⟨n, htk⟩ := Option.isSome_iff_exists.mp hsm
  obtain ⟨-, hfree_n, hcoll⟩ := TLRUCache.tryKeys_some htk
  refine ⟨n, TLRUCache.pushState c now (gen n) v,
    TLRUCache.insert_new_eq htk, hfree_n,
    (fun j hj => hcoll j (Nat.zero_le j) hj), ?_, ?_, ?_⟩
  · obtain ⟨h2, hQ', hother, hnew, -, -⟩ :=
      Queue.push_spec (⟨gen n, v, now⟩ : Record K V) hQ
    have hord : (TLRUCache.pushState c now (gen n) v).order =
        (Queue.push c.order (⟨gen n, v, now⟩ : Record K V)).1 := rfl
    rw [hord, Queue.toList_eq hQ', Queue.toList_eq hQ,
      Queue.valuesAlong_append]
    congr 1
    · refine Queue.valuesAlong_congr (fun b hb => ?_)
      exact hother b (Nat.ne_of_lt (hQ.bound b hb))
    · simp [Queue.valuesAlong, hnew]
  · have hst : (TLRUCache.pushState c now (gen n) v).store =
        sinsert c.store (gen n)
          (Queue.push c.order (⟨gen n, v, now⟩ : Record K V)).2 := rfl
    rw [hst]
    simp [sinsert, sfind]
  · intro k hk
    have hst : (TLRUCache.pushState c now (gen n) v).store =
        sinsert c.store (gen n)
          (Queue.push c.order (⟨gen n, v, now⟩ : Record K V)).2 := rfl
    rw [hst]
    show sfind ((gen n, _) :: sdel c.store (gen n)) k = sfind c.store k
    rw [sfind, if_neg hk, sfind_sdel_ne hk]

theorem C7_insert_new_spec_witness :
    (Queue.QInv (TLRUCache.new Nat Nat 5).order none [] ∧ 0 < 1 ∧
      sfind (TLRUCache.new Nat Nat 5).store ((fun i => i) 0) = none) ∧
    (∃ n c', TLRUCache.insert_new (TLRUCache.new Nat Nat 5) 3
        (fun i => i) 1 42 = some ((fun i => i) n, c') ∧
      sfind (TLRUCache.new Nat Nat 5).store ((fun i => i) n) = none ∧
      (∀ j, j < n →
        (sfind (TLRUCache.new Nat Nat 5).store ((fun i => i) j)).isSome) ∧
      Queue.toList c'.order =
        Queue.toList (TLRUCache.new Nat Nat 5).order ++
          [(⟨(fun i => i) n, 42, 3⟩ : Record Nat Nat)] ∧
      (sfind c'.store ((fun i => i) n)).isSome ∧
      (∀ k, k ≠ (fun i => i) n → sfind c'.store k =
        sfind (TLRUCache.new Nat Nat 5).store k)) := by
  have hQ : Queue.QInv (TLRUCache.new Nat Nat 5).order none [] :=
    ⟨trivial, rfl, rfl, List.nodup_nil, List.nodup_nil,
      (fun p hp => absurd hp (List.not_mem_nil p)),
      (fun a ha => absurd ha (List.not_mem_nil a)),
      (fun d h => nomatch h), (fun h => rfl)⟩
  exact ⟨⟨hQ, Nat.zero_lt_one, rfl⟩,
    C7_insert_new_spec (TLRUCache.new Nat Nat 5) 3 (fun i => i) 1 42
      none [] hQ 0 Nat.zero_lt_one rfl⟩


/-! ### Counterexample scenarios -/

/-- Insert value 100 under key 1 at time 0, then insert value 200 under the
same key at time 1. -/
def cC1 : TLRUCache Nat Nat :=
  TLRUCache.insert (TLRUCache.insert (TLRUCache.new Nat Nat 5) 0 1 100) 1 1 200

/-- C1: refuted — on a key already present, `TLRUCache::insert` stamps the
access time and moves the node, but never writes the supplied value: after
inserting 100 and then 200 under key 1, the stored value is still 100. -/
theorem C1_insert_does_not_overwrite :
    (TLRUCache.fetch cC1 1 1).1 = some 100 ∧
    (TLRUCache.fetch cC1 1 1).1 ≠ some 200 ∧
    Queue.toList cC1.order = [⟨1, 100, 1⟩] := by decide

/-- Two pushes followed by a pop: the sole remaining element is the node at
handle 1, whose `prev` still names the freed front node. -/
def qC9 : Queue Nat := (((Queue.new Nat).push 10).1.push 20).1

def qC9p : Queue Nat := ((qC9.pop_node).map Prod.snd).getD qC9

def qC9r : Queue Nat := qC9p.remove 1

def qC9b : Queue Nat := qC9r.push_node 1

/-- C9: refuted — removing the queue's only element must empty both `head`
and `tail`, but `pop_node` does not clear the surviving node's `prev`, so
`remove` copies the stale pointer into `tail` (`some 0`, a freed address)
while `head` becomes `none`; re-appending the same (still allocated) handle
then yields an empty iteration instead of the element at the back. -/
theorem C9_remove_sole_element_stale_tail :
    Queue.toList qC9p = [20] ∧ qC9p.head = some 1 ∧ qC9p.tail = some 1 ∧
    qC9r.head = none ∧ qC9r.tail = some 0 ∧ qC9r.tail ≠ none ∧
    (sfind qC9r.heap 1).isSome ∧
    Queue.toList qC9b = [] ∧ Queue.toList qC9b ≠ [20] := by decide

/-- Insert keys 5 and 6 at times 0 and 1 (expiry 2), vacuum at time 2 (which
evicts key 5 and leaves key 6's node with a stale `prev`), then fetch key 6. -/
def cC3 : TLRUCache Nat Nat :=
  (TLRUCache.fetch
    (TLRUCache.vacuum
      (TLRUCache.insert
        (TLRUCache.insert (TLRUCache.new Nat Nat 2) 0 5 50) 1 6 60) 2)
    2 6).2

/-- C3: refuted — a state reachable by insert, vacuum and fetch violates the
index/order bijection: key 6 is still present in the index but no element of
the ordering structure remains (iteration is empty). -/
theorem C3_index_order_bijection_violated :
    TLRUCache.Reach cC3 2 ∧ (sfind cC3.store 6).isSome ∧
    Queue.toList cC3.order = [] :=
  ⟨TLRUCache.Reach.step_fetch 6 (TLRUCache.Reach.step_vacuum
    (TLRUCache.Reach.tick (TLRUCache.Reach.step_insert 6 60
      (TLRUCache.Reach.tick (TLRUCache.Reach.step_insert 5 50
        (TLRUCache.Reach.init 2)) (by decide))) (by decide))),
   by decide, by decide⟩

/-- Insert keys 0 and 1 at times 0 and 1 (expiry 2), vacuum at time 2: key 0
is evicted and key 1's node keeps a stale `prev`. -/
def cC10pre : TLRUCache Nat Nat :=
  TLRUCache.vacuum
    (TLRUCache.insert
      (TLRUCache.insert (TLRUCache.new Nat Nat 2) 0 0 10) 1 1 20) 2

def cC10post : TLRUCache Nat Nat := (TLRUCache.fetch cC10pre 2 1).2

/-- C10: refuted — `fetch` on the present key 1 returns the stored value, but
instead of only refreshing that record's stamp and moving it to the back of
the order, it makes the record vanish from the ordering structure entirely
(the stale `prev` left by vacuum's pop corrupts the relink), while the index
still lists the key. -/
theorem C10_fetch_frame_violated :
    (TLRUCache.fetch cC10pre 2 1).1 = some 20 ∧
    Queue.toList cC10pre.order = [⟨1, 20, 1⟩] ∧
    (sfind cC10post.store 1).isSome ∧
    Queue.toList cC10post.order = [] ∧
    Queue.toList cC10post.order ≠ [⟨1, 20, 2⟩] := by decide

/-- Uniqueness-layer scenario: identity is `value % 100`, keys are generated
as 0, 1, 2, …; insert value 9 at time 0 (key 0) and value 1 at time 1
(key 1), then vacuum at time 2, evicting key 0 and leaving key 1's node with
a stale `prev`. -/
def uC6a : UniqueTLRUCache Nat Nat Nat :=
  ((UniqueTLRUCache.insert_new (fun v => v % 100)
    (UniqueTLRUCache.new Nat Nat Nat 2) 0 (fun i => i) 3 9).map
      Prod.snd).getD (UniqueTLRUCache.new Nat Nat Nat 2)

def uC6c : UniqueTLRUCache Nat Nat Nat :=
  UniqueTLRUCache.vacuum (fun v => v % 100)
    (((UniqueTLRUCache.insert_new (fun v => v % 100) uC6a 1
      (fun i => i) 3 1).map Prod.snd).getD uC6a) 2

def uC6post : UniqueTLRUCache Nat Nat Nat :=
  ((UniqueTLRUCache.insert_new (fun v => v % 100) uC6c 2
    (fun i => i) 3 101).map Prod.snd).getD uC6c

/-- C6: refuted — value 1 (identity 1) was inserted under key 1 and is still
live when value 101 of the same identity is inserted at time 2; the second
call does return the same key 1 and keeps the first value, but the record is
not moved to the tail of the iteration order with a refreshed stamp — it
disappears from iteration entirely. -/
theorem C6_dedup_record_not_moved_to_tail :
    (UniqueTLRUCache.insert_new (fun v => v % 100) uC6a 1
      (fun i => i) 3 1).map Prod.fst = some 1 ∧
    Queue.toList uC6c.cache.order = [⟨1, 1, 1⟩] ∧
    (UniqueTLRUCache.insert_new (fun v => v % 100) uC6c 2
      (fun i => i) 3 101).map Prod.fst = some 1 ∧
    Queue.toList uC6post.cache.order = [] ∧
    Queue.toList uC6post.cache.order ≠ [⟨1, 1, 2⟩] := by decide

/-- A deletion never resurrects an absent key. -/
theorem sfind_sdel_none {K A : Type} [DecidableEq K] {m : List (K × A)}
    {i : K} (x : K) (h : sfind m i = none) : sfind (sdel m x) i = none := by
  cases hs : sfind (sdel m x) i with
  | none => rfl
  | some v =>
    exfalso
    have hmem : (i, v) ∈ sdel m x := sfind_mem hs
    have hmem' : (i, v) ∈ m := sdel_subset _ hmem
    have hin : (sfind m i).isSome :=
      isSome_sfind_iff.mpr (List.mem_map_of_mem Prod.fst hmem')
    rw [h] at hin
    cases hin

/-- An absent key stays absent under a fold of deletions. -/
theorem sfind_foldl_sdel_none {K A : Type} [DecidableEq K] :
    ∀ (xs : List K) (m : List (K × A)) (i : K),
      sfind m i = none → sfind (List.foldl sdel m xs) i = none := by
  intro xs
  induction xs with
  | nil => intro m i h; exact h
  | cons x xs ih => intro m i h; exact ih (sdel m x) i (sfind_sdel_none x h)

/-- Folding deletions over a list containing the key removes its entry. -/
theorem sfind_foldl_sdel_mem {K A : Type} [DecidableEq K] :
    ∀ (xs : List K) (m : List (K × A)) (i : K),
      (keys m).Nodup → i ∈ xs → sfind (List.foldl sdel m xs) i = none := by
  intro xs
  induction xs with
  | nil => intro m i _ hi; cases hi
  | cons x xs ih =>
    intro m i hnd hi
    by_cases hix : i = x
    · subst hix
      exact sfind_foldl_sdel_none xs (sdel m i) i (sfind_sdel_self hnd i)
    · rcases List.mem_cons.mp hi with h | h
      · exact absurd h hix
      · exact ih (sdel m x) i (keys_sdel_nodup hnd x) h

/-- C8: once the cache entry backing an identity is gone — removed via the
uniqueness layer's `remove(key)` (which also deletes the secondary-index
entry keyed by the removed value's identity) or evicted by the uniqueness
layer's vacuum — a subsequent `insert_new` of an equal-identity value finds
no secondary-index entry, takes the creation path, and makes a new cache
entry at a fresh address under a key absent from the index at creation time,
re-pointing the secondary index at that new key rather than returning the
old one. -/
theorem C8_backing_gone_then_insert_new {K V Id : Type} [DecidableEq K]
    [DecidableEq Id] (vid : V → Id) (u u1 : UniqueTLRUCache K V Id)
    (idv : Id) (v2 : V) (now : Nat) (gen : Nat → K) (fuel m : Nat)
    (hvid2 : vid v2 = idv)
    (hgone :
      (∃ k a nd, sfind u.cache.store k = some a ∧
        sfind u.cache.order.heap a = some nd ∧
        vid nd.value.value = idv ∧ (keys u.value_ids).Nodup ∧
        u1 = (UniqueTLRUCache.remove vid u k).2) ∨
      (∃ tv pr L, Queue.QInv u.cache.order pr L ∧
        TLRUCache.StoreOk u.cache L ∧
        List.Chain' (· ≤ ·)
          ((Queue.valuesAlong u.cache.order.heap L).map Record.access) ∧
        (keys u.value_ids).Nodup ∧
        (∃ rec ∈ (Queue.toList u.cache.order).takeWhile
            (fun rec => decide (u.cache.expiry ≤ tv - rec.access)),
          vid rec.value = idv) ∧
        u1 = UniqueTLRUCache.vacuum vid u tv))
    (hm : m < fuel)
    (hfree : sfind u1.cache.store (gen m) = none) :
    sfind u1.value_ids idv = none ∧
    ∃ n u2,
      UniqueTLRUCache.insert_new vid u1 now gen fuel v2 =
        some (gen n, u2) ∧
      sfind u1.cache.store (gen n) = none ∧
      sfind u2.value_ids (vid v2) = some (gen n) ∧
      sfind u2.cache.store (gen n) = some u1.cache.order.fresh ∧
      ∃ nd2, sfind u2.cache.order.heap u1.cache.order.fresh = some nd2 ∧
        nd2.value = (⟨gen n, v2, now⟩ : Record K V) := by
  have hids_none : sfind u1.value_ids idv = none := by
    rcases hgone with ⟨k, a, nd, hstore, hnode, hvid, hidnd, hu1⟩ |
        ⟨tv, pr, L, hQ, hS, hsort, hidnd, ⟨rec, hrec, hvidr⟩, hu1⟩
    · have hnd' : sfind (Queue.remove u.cache.order a).heap a =
          some (⟨nd.value, none, none⟩ : Queue.Node (Record K V)) := by
        rw [Queue.remove_heap_sfind hnode a, if_pos rfl]
      have hrem0 := TLRUCache.remove_eq_some hstore hnd'
      have hrem : TLRUCache.remove u.cache k =
          (some nd.value.value, TLRUCache.removeState u.cache k a) := hrem0
      have hur : UniqueTLRUCache.remove vid u k =
          (some nd.value.value,
            ⟨sdel u.value_ids (vid nd.value.value),
              TLRUCache.removeState u.cache k a⟩) := by
        simp [UniqueTLRUCache.remove, hrem]
      rw [hu1, hur]
      show sfind (sdel u.value_ids (vid nd.value.value)) idv = none
      rw [← hvid]
      exact sfind_sdel_self hidnd _
    · have hlen : L.length ≤ u.cache.order.heap.length :=
        Queue.length_le_heap hQ
      obtain ⟨-, -, -, h4⟩ :=
        TLRUCache.vacuumCb_spec tv (fun ids rec => sdel ids (vid rec.value))
          u.cache.order.heap.length u.cache u.value_ids pr L hQ hS hsort hlen
      have hval : u1.value_ids =
          (TLRUCache.vacuumCbFuel tv
            (fun ids rec => sdel ids (vid rec.value))
            u.cache u.value_ids u.cache.order.heap.length).2 := by
        rw [hu1]
        rfl
      have hfold : ((Queue.toList u.cache.order).takeWhile
          (fun rec => decide (u.cache.expiry ≤ tv - rec.access))).foldl
            (fun ids rec => sdel ids (vid rec.value)) u.value_ids =
          List.foldl sdel u.value_ids
            (((Queue.toList u.cache.order).takeWhile
              (fun rec => decide (u.cache.expiry ≤ tv - rec.access))).map
                (fun rec => vid rec.value)) := by
        rw [List.foldl_map]
      rw [hval, h4, hfold]
      exact sfind_foldl_sdel_mem _ _ _ hidnd
        (List.mem_map.mpr ⟨rec, hrec, hvidr⟩)
  have hmiss : sfind u1.value_ids (vid v2) = none := by
    rw [hvid2]
    exact hids_none
  have hsm : (TLRUCache.tryKeys u1.cache.store gen 0 fuel).isSome :=
    TLRUCache.tryKeys_isSome (Nat.zero_le m) (by simpa using hm) hfree
  obtain ⟨n, htk⟩ := Option.isSome_iff_exists.mp hsm
  obtain ⟨-, hfree_n, -⟩ := TLRUCache.tryKeys_some htk
  have hinner : TLRUCache.insert_new u1.cache now gen fuel v2 =
      some (gen n, TLRUCache.pushState u1.cache now (gen n) v2) :=
    TLRUCache.insert_new_eq htk
  refine ⟨hids_none, n,
    ⟨sinsert u1.value_ids (vid v2) (gen n),
      TLRUCache.pushState u1.cache now (gen n) v2⟩, ?_, hfree_n, ?_, ?_, ?_⟩
  · simp [UniqueTLRUCache.insert_new, hmiss, hinner]
  · show sfind (sinsert u1.value_ids (vid v2) (gen n)) (vid v2) = some (gen n)
    simp [sinsert, sfind]
  · show sfind ((gen n,
        (Queue.push u1.cache.order (⟨gen n, v2, now⟩ : Record K V)).2) ::
        sdel u1.cache.store (gen n)) (gen n) = some u1.cache.order.fresh
    rw [Queue.sfind_cons, if_pos rfl]
    rfl
  · have hmap : (sfind (Queue.push u1.cache.order
        (⟨gen n, v2, now⟩ : Record K V)).1.heap u1.cache.order.fresh).map
        Queue.Node.value = some (⟨gen n, v2, now⟩ : Record K V) := by
      show (sfind (Queue.push_node
          { u1.cache.order with
            heap := (u1.cache.order.fresh,
              ⟨⟨gen n, v2, now⟩, none, none⟩) :: u1.cache.order.heap
            fresh := u1.cache.order.fresh + 1 }
          u1.cache.order.fresh).heap u1.cache.order.fresh).map
        Queue.Node.value = some (⟨gen n, v2, now⟩ : Record K V)
      rw [Queue.push_node_value_map]
      show (sfind ((u1.cache.order.fresh,
        (⟨⟨gen n, v2, now⟩, none, none⟩ : Queue.Node (Record K V))) ::
        u1.cache.order.heap) u1.cache.order.fresh).map Queue.Node.value = _
      rw [Queue.sfind_cons, if_pos rfl]
      rfl
    obtain ⟨nd2, hnd2, hval2⟩ := Option.map_eq_some'.mp hmap
    exact ⟨nd2, hnd2, hval2⟩

/-- A concrete uniqueness-layer cache for the backing-entry-gone scenario:
one record (key 10, value 107, access 0, identity 107 % 100 = 7) backed by
the secondary index; at time 4 with expiry 2 it is evicted by vacuum. -/
def uW8 : UniqueTLRUCache Nat Nat Nat :=
  { value_ids := [(7, 10)]
    cache :=
      { expiry := 2
        store := [(10, 0)]
        order :=
          { heap := [(0, ⟨⟨10, 107, 0⟩, none, none⟩)]
            head := some 0
            tail := some 0
            fresh := 1 } } }

theorem C8_backing_gone_then_insert_new_witness :
    ((fun v => v % 100) 207 = 7 ∧
      Queue.QInv uW8.cache.order none [0] ∧
      TLRUCache.StoreOk uW8.cache [0] ∧
      List.Chain' (· ≤ ·)
        ((Queue.valuesAlong uW8.cache.order.heap [0]).map Record.access) ∧
      (keys uW8.value_ids).Nodup ∧
      (⟨10, 107, 0⟩ : Record Nat Nat) ∈
        (Queue.toList uW8.cache.order).takeWhile
          (fun rec => decide (uW8.cache.expiry ≤ 4 - rec.access)) ∧
      (fun v => v % 100)
        ((⟨10, 107, 0⟩ : Record Nat Nat)).value = 7 ∧
      0 < 1 ∧
      sfind (UniqueTLRUCache.vacuum (fun v => v % 100) uW8 4).cache.store
        ((fun i => i) 0) = none) ∧
    (sfind (UniqueTLRUCache.vacuum (fun v => v % 100) uW8 4).value_ids 7 =
        none ∧
      ∃ n u2,
        UniqueTLRUCache.insert_new (fun v => v % 100)
          (UniqueTLRUCache.vacuum (fun v => v % 100) uW8 4)
          5 (fun i => i) 1 207 = some ((fun i => i) n, u2) ∧
        sfind (UniqueTLRUCache.vacuum (fun v => v % 100) uW8 4).cache.store
          ((fun i => i) n) = none ∧
        sfind u2.value_ids ((fun v => v % 100) 207) = some ((fun i => i) n) ∧
        sfind u2.cache.store ((fun i => i) n) =
          some (UniqueTLRUCache.vacuum
            (fun v => v % 100) uW8 4).cache.order.fresh ∧
        ∃ nd2, sfind u2.cache.order.heap
            (UniqueTLRUCache.vacuum
              (fun v => v % 100) uW8 4).cache.order.fresh = some nd2 ∧
          nd2.value = (⟨(fun i => i) n, 207, 5⟩ : Record Nat Nat)) := by
  have hQ : Queue.QInv uW8.cache.order none [0] := by
    refine ⟨?_, rfl, rfl, by decide, by decide, by decide, by decide,
      (fun d h => nomatch h), (fun h => rfl)⟩
    exact ⟨⟨⟨10, 107, 0⟩, none, none⟩, rfl, rfl, rfl, trivial⟩
  have hS : TLRUCache.StoreOk uW8.cache [0] := by
    refine ⟨by decide, ?_⟩
    intro k a h
    by_cases h10 : k = 10
    · subst h10
      have ha : a = 0 := by simpa [sfind] using h.symm
      subst ha
      exact ⟨by decide, ⟨⟨10, 107, 0⟩, none, none⟩, rfl, rfl⟩
    · exfalso
      have hn : sfind uW8.cache.store k = none := by simp [uW8, sfind, h10]
      rw [hn] at h
      cases h
  have hsort : List.Chain' (· ≤ ·)
      ((Queue.valuesAlong uW8.cache.order.heap [0]).map Record.access) := by
    have hv : (Queue.valuesAlong uW8.cache.order.heap [0]).map Record.access =
        [0] := rfl
    rw [hv]
    exact List.chain'_singleton 0
  exact ⟨⟨rfl, hQ, hS, hsort, by decide, by decide, rfl, Nat.zero_lt_one,
      by decide⟩,
    C8_backing_gone_then_insert_new (fun v => v % 100) uW8
      (UniqueTLRUCache.vacuum (fun v => v % 100) uW8 4) 7 207 5
      (fun i => i) 1 0 rfl
      (Or.inr ⟨4, none, [0], hQ, hS, hsort, by decide,
        ⟨⟨10, 107, 0⟩, by decide, rfl⟩, rfl⟩)
      Nat.zero_lt_one (by decide)⟩
